import Mathlib

/-!
Verification development for `local/bin/py/build/actions/format_link.py`.

The program parses a markdown document into a tree of shortcode scopes,
rewrites reference-style links per scope, and reassembles the document.
This file gives a shallow embedding of that pipeline: text is `List Char`,
each Python regex is specialised to an executable matcher with the same
backtracking semantics, the mutated `Node` objects become a functional
zipper, and every fallible Python operation (`raise SystemExit`,
`ValueError`, `TypeError`, `IndexError`) is an `Except` error value.
-/

namespace FormatLink

/-! ## Character classes

Python `re` on `str` uses Unicode classes.  `isPySpace` enumerates the
code points matched by `\s` (checked against CPython), `isPyDigit` covers
the ASCII digits that can occur in the documents modelled here, and
`isTagChar` is the class `[A-Za-z0-9-_]` of the shortcode-tag patterns. -/

def isPySpace (c : Char) : Bool :=
  c = ' ' || c = '\t' || c = '\n' || c = '\r' || c = '\x0b' || c = '\x0c' ||
  c = '\x1c' || c = '\x1d' || c = '\x1e' || c = '\x1f' || c = '\x85' || c = '\xa0' ||
  c = '\u1680' || ('\u2000' ≤ c && c ≤ '\u200a') || c = '\u2028' || c = '\u2029' ||
  c = '\u202f' || c = '\u205f' || c = '\u3000'

def isPyDigit (c : Char) : Bool := '0' ≤ c && c ≤ '9'

def isTagChar (c : Char) : Bool :=
  ('A' ≤ c && c ≤ 'Z') || ('a' ≤ c && c ≤ 'z') || isPyDigit c || c = '-' || c = '_'

/-! ## List utilities mirroring the Python string operations -/

/-- `startsWith pat s`: `pat` is an initial segment of `s`. -/
def startsWith : List Char → List Char → Bool
  | [], _ => true
  | _ :: _, [] => false
  | p :: ps, c :: cs => p = c && startsWith ps cs

/-- `containsSeg pat s`: `pat` occurs as a contiguous segment of `s`
(Python `pat in s`). -/
def containsSeg (pat : List Char) : List Char → Bool
  | [] => startsWith pat []
  | c :: cs => startsWith pat (c :: cs) || containsSeg pat cs

/-- Longest initial run of `s` satisfying `p`. -/
def countWhile (p : Char → Bool) : List Char → Nat
  | [] => 0
  | c :: cs => if p c then countWhile p cs + 1 else 0

/-- Python `str.replace`: replace all non-overlapping occurrences, left to
right.  The fuel argument (instantiated with the length of the string by
`pyReplace`) only makes the recursion structural; it never runs out. -/
def replaceFuel (pat rep : List Char) : Nat → List Char → List Char
  | _, [] => []
  | 0, s => s
  | fuel + 1, c :: cs =>
    if pat ≠ [] && startsWith pat (c :: cs) then
      rep ++ replaceFuel pat rep fuel ((c :: cs).drop pat.length)
    else
      c :: replaceFuel pat rep fuel cs

def pyReplace (s pat rep : List Char) : List Char := replaceFuel pat rep s.length s

/-- `''.join(lines)`. -/
def joinLines : List (List Char) → List Char
  | [] => []
  | l :: ls => l ++ joinLines ls

def splitAux : List Char → List Char → List (List Char)
  | acc, [] => if acc.isEmpty then [] else [acc.reverse]
  | acc, c :: cs =>
    if c = '\n' then (acc.reverse ++ ['\n']) :: splitAux [] cs
    else splitAux (c :: acc) cs

/-- `str.splitlines(keepends=True)` for text whose only line-break
character is `'\n'` (the rewriter strips every other break character
before splitting, and the file reader below translates `'\r'`). -/
def splitKeepEnds (s : List Char) : List (List Char) := splitAux [] s

/-- Universal-newline translation performed by Python text-mode file
reading (`'\r\n'` and `'\r'` become `'\n'`). -/
def normalizeNewlines : List Char → List Char
  | [] => []
  | '\r' :: '\n' :: cs => '\n' :: normalizeNewlines cs
  | '\r' :: cs => '\n' :: normalizeNewlines cs
  | c :: cs => c :: normalizeNewlines cs

/-- The line sequence produced by iterating over the opened file. -/
def readLines (doc : List Char) : List (List Char) :=
  splitKeepEnds (normalizeNewlines doc)

/-! ## The shortcode tag patterns

`open_tag_regex  = r"{{[<|%]\s+([A-Za-z0-9-_]+)(.*)\s+[%|>]}}"`
`closed_tag_regex = r"{{[<|%]\s+/([A-Za-z0-9-_]+)(.*)\s*[%|>]}}"`

Both are matched per line, and the lines handed to them contain `'\n'`
only as their final character, so the `.`-does-not-cross-newline side
condition of `(.*)` is vacuous.  After the greedy `(.*)` the engine
backtracks to the last position where `\s+[%|>]}}` (resp. `\s*[%|>]}}`)
completes; `lastCloserAux` computes the end of that last completion.
`needWs` distinguishes `\s+` (open tag) from `\s*` (close tag). -/

def lastCloserAux (needWs : Bool) : Bool → Nat → List Char → Option Nat
  | _, _, [] => none
  | prevWs, pos, c :: cs =>
    let here : Option Nat :=
      if (!needWs || prevWs) && (c = '%' || c = '|' || c = '>') && startsWith ['}', '}'] cs
      then some (pos + 3) else none
    match lastCloserAux needWs (isPySpace c) (pos + 1) cs with
    | some e => some e
    | none => here

/-- Try the open-tag pattern at the head of `s`; on success return the
match length and the captured tag name. -/
def openMatchAt : List Char → Option (Nat × List Char)
  | '{' :: '{' :: b :: rest =>
    if b = '<' || b = '|' || b = '%' then
      let w := countWhile isPySpace rest
      if w = 0 then none else
      let afterWs := rest.drop w
      let n := countWhile isTagChar afterWs
      if n = 0 then none else
      match lastCloserAux true false 0 (afterWs.drop n) with
      | some e => some (3 + w + n + e, afterWs.take n)
      | none => none
    else none
  | _ => none

/-- Try the close-tag pattern at the head of `s`. -/
def closeMatchAt : List Char → Option (Nat × List Char)
  | '{' :: '{' :: b :: rest =>
    if b = '<' || b = '|' || b = '%' then
      let w := countWhile isPySpace rest
      if w = 0 then none else
      match rest.drop w with
      | '/' :: afterSlash =>
        let n := countWhile isTagChar afterSlash
        if n = 0 then none else
        match lastCloserAux false false 0 (afterSlash.drop n) with
        | some e => some (3 + w + 1 + n + e, afterSlash.take n)
        | none => none
      | _ => none
    else none
  | _ => none

/-- `re.finditer` scan for the open-tag pattern: leftmost matches, each
scan resuming after the previous match.  Yields `(match.start, name)`,
the data consumed by the parser.  Fuel is the string length. -/
def openScanAux : Nat → Nat → List Char → List (Nat × List Char)
  | 0, _, _ => []
  | _, _, [] => []
  | fuel + 1, pos, c :: rest =>
    match openMatchAt (c :: rest) with
    | some (len, name) => (pos, name) :: openScanAux fuel (pos + len) ((c :: rest).drop len)
    | none => openScanAux fuel (pos + 1) rest

def openMatches (line : List Char) : List (Nat × List Char) :=
  openScanAux (line.length + 1) 0 line

/-- `re.finditer` scan for the close-tag pattern, yielding
`(name, match.end)`, the data consumed by the parser. -/
def closeScanAux : Nat → Nat → List Char → List (List Char × Nat)
  | 0, _, _ => []
  | _, _, [] => []
  | fuel + 1, pos, c :: rest =>
    match closeMatchAt (c :: rest) with
    | some (len, name) => (name, pos + len) :: closeScanAux fuel (pos + len) ((c :: rest).drop len)
    | none => closeScanAux fuel (pos + 1) rest

def closeMatches (line : List Char) : List (List Char × Nat) :=
  closeScanAux (line.length + 1) 0 line

/-! ## The footnote-definition pattern  `r"^\s*\[(\d*?)\]: (\S*)"`

`^` with `re.MULTILINE` anchors at the start of the text and after every
`'\n'`.  The greedy `\s*` may cross line breaks; since `'['` is not a
space, only the maximal space run can precede it.  The lazy `(\d*?)`
followed by `\]` is forced to the maximal digit run, `": "` is literal
(one real space), and `(\S*)` is the maximal non-space run. -/

/-- Try the footnote pattern at a `^` position; on success return the
match length, the digit group and the link group. -/
def footMatchAt (s : List Char) : Option (Nat × List Char × List Char) :=
  let w := countWhile isPySpace s
  match s.drop w with
  | '[' :: afterBr =>
    let d := countWhile isPyDigit afterBr
    match afterBr.drop d with
    | ']' :: ':' :: ' ' :: afterColon =>
      let ln := countWhile (fun c => !isPySpace c) afterColon
      some (w + 1 + d + 3 + ln, afterBr.take d, afterColon.take ln)
    | _ => none
  | _ => none

/-- `re.finditer` scan for footnote definitions.  `atStart` records
whether the current position is a `^` anchor; a successful match never
ends in `'\n'` (its last character is either the literal `' '` of `": "`
or a non-space link character), so scanning resumes mid-line. -/
def footScanAux : Nat → Bool → List Char → List (List Char × List Char)
  | 0, _, _ => []
  | _, _, [] => []
  | fuel + 1, atStart, c :: rest =>
    if atStart then
      match footMatchAt (c :: rest) with
      | some (len, ds, link) => (ds, link) :: footScanAux fuel false ((c :: rest).drop len)
      | none => footScanAux fuel (c = '\n') rest
    else footScanAux fuel (c = '\n') rest

def footnotes (s : List Char) : List (List Char × List Char) :=
  footScanAux (s.length + 1) true s

/-- `re.search(r"^\s*\[(\d*?)\]: (\S*)", line)` without `MULTILINE`:
only position 0 satisfies `^`. -/
def lineHasFootnote (line : List Char) : Bool := (footMatchAt line).isSome

/-! ## The orphan-reference pattern  `r"\[.*?\]\[(?![#?])(\S*?)\]"`

Used only through `re.search`, i.e. as a boolean. -/

/-- `\S*?\]`: a `']'` is reached before any space character. -/
def refBody : List Char → Bool
  | [] => false
  | c :: cs => if c = ']' then true else if isPySpace c then false else refBody cs

/-- `(?![#?])(\S*?)\]` applied after a `"]["`. -/
def refTail : List Char → Bool
  | [] => false
  | c :: cs => if c = '#' || c = '?' then false else refBody (c :: cs)

/-- After the initial `'['`: lazy `.*?` (not across `'\n'`) up to a
`"]["`, with backtracking to later `"]["` candidates on failure. -/
def refSeek : List Char → Bool
  | ']' :: '[' :: rest => refTail rest || refSeek ('[' :: rest)
  | '\n' :: _ => false
  | _ :: cs => refSeek cs
  | [] => false

/-- `re.search` of the reference-link pattern. -/
def refSearch : List Char → Bool
  | [] => false
  | '[' :: cs => refSeek cs || refSearch ('[' :: cs).tail
  | _ :: cs => refSearch cs

/-! ## The inline-link pattern  `r"\[.*?\]\((?![#?])(\S*?)\)"`

Scanned with `re.finditer`, collecting `match.group(1)` (the URL). -/

/-- `\S*?\)`: characters up to the first `')'`, none of them spaces;
returns the URL length and the URL. -/
def urlScan : List Char → Option (Nat × List Char)
  | [] => none
  | c :: cs =>
    if c = ')' then some (0, [])
    else if isPySpace c then none
    else match urlScan cs with
         | some (n, u) => some (n + 1, c :: u)
         | none => none

/-- After the initial `'['`: find the first (lazy `.*?`) `"]("` whose
lookahead and URL part complete, backtracking to later `"]("` candidates
otherwise.  Returns the consumed length and the URL group. -/
def inlineTail : List Char → Option (Nat × List Char)
  | ']' :: '(' :: rest =>
    (match (match rest with
            | c :: _ => if c = '#' || c = '?' then none else urlScan rest
            | [] => none) with
     | some (n, u) => some (2 + n + 1, u)
     | none =>
       match inlineTail ('(' :: rest) with
       | some (m, u) => some (1 + m, u)
       | none => none)
  | '\n' :: _ => none
  | [] => none
  | _ :: cs =>
    match inlineTail cs with
    | some (m, u) => some (1 + m, u)
    | none => none

def inlineMatchAt : List Char → Option (Nat × List Char)
  | '[' :: cs =>
    (match inlineTail cs with
     | some (m, u) => some (1 + m, u)
     | none => none)
  | _ => none

def inlineScanAux : Nat → List Char → List (List Char)
  | 0, _ => []
  | _, [] => []
  | fuel + 1, c :: rest =>
    match inlineMatchAt (c :: rest) with
    | some (len, url) => url :: inlineScanAux fuel ((c :: rest).drop len)
    | none => inlineScanAux fuel rest

/-- All inline-link URLs of the text, in `finditer` order. -/
def inlineLinks (s : List Char) : List (List Char) :=
  inlineScanAux (s.length + 1) s

/-! ## The scope tree

`class Node` of the source.  `start`/`end` are called `colStart`/`colEnd`
(`end` is a Lean keyword).  All fields default to the Python constructor
values (`[]` and `0`). -/

inductive Node where
  | mk (name : List Char) (lines modifiedLines : List (List Char))
       (startLine endLine colStart colEnd : Nat) (children : List Node)

def Node.name : Node → List Char
  | .mk nm _ _ _ _ _ _ _ => nm

def Node.lines : Node → List (List Char)
  | .mk _ ls _ _ _ _ _ _ => ls

def Node.modifiedLines : Node → List (List Char)
  | .mk _ _ ml _ _ _ _ _ => ml

def Node.startLine : Node → Nat
  | .mk _ _ _ sl _ _ _ _ => sl

def Node.endLine : Node → Nat
  | .mk _ _ _ _ el _ _ _ => el

def Node.colStart : Node → Nat
  | .mk _ _ _ _ _ cs _ _ => cs

def Node.colEnd : Node → Nat
  | .mk _ _ _ _ _ _ ce _ => ce

def Node.children : Node → List Node
  | .mk _ _ _ _ _ _ _ ks => ks

/-! ## The parser (`parse_file`)

The Python code mutates a current-node pointer; here the same state is a
zipper: `cur` is the data of the current node, `stack` its ancestors
(innermost first, each holding the children finished before descending),
and `nln` is `new_line_number`. -/

/-- The tuple of one-liner tag names.  The source joins the two adjacent
string literals `"aws-permissions" "dbm-sqlserver-before-you-begin"` into
one element. -/
def oneLinerTags : List (List Char) :=
  ["partial", "img", "region-param", "latest-lambda-layer-version", "X",
   "dashboards-widgets-api", "api-scopes", "vimeo", "integrations",
   "jqmath-vanilla", "translate", "get-service-checks-from-git",
   "get-metrics-from-git", "appsec-getstarted", "appsec-getstarted-2",
   "appsec-getstarted-2-canary", "sdk-version", "notifications-integrations",
   "notifications-email", "get-npm-integrations", "permissions",
   "aws-permissionsdbm-sqlserver-before-you-begin", "log-libraries-table",
   "serverless-libraries-table", "tracing-libraries-table",
   "classic-libraries-table", "dbm-sqlserver-agent-setup-kubernetes",
   "dbm-sqlserver-agent-setup-docker", "dbm-sqlserver-agent-setup-linux",
   "dbm-sqlserver-agent-setup-windows", "managed-locations"].map String.data

structure Frame where
  name : List Char
  lines : List (List Char)
  children : List Node
  startLine : Nat
  colStart : Nat
  colEnd : Nat

structure PState where
  stack : List Frame
  cur : Frame
  nln : Nat

def initState : PState :=
  { stack := [], cur := { name := "root".data, lines := [], children := [],
                          startLine := 0, colStart := 0, colEnd := 0 }, nln := 0 }

/-- A finished node built from a frame (`modified_lines` empty). -/
def frameToNode (f : Frame) (endL : Nat) : Node :=
  Node.mk f.name f.lines [] f.startLine endL f.colStart f.colEnd f.children

/-- One open-tag match (lines 98-103): `current_node.start = match.start(0)`
always; a non-one-liner creates a node attached to the current node, and
only the last such node is descended into, so an earlier pending one is
flushed as an (empty) child. -/
def openFold (sp : PState × Option (List Char)) (m : Nat × List Char) :
    PState × Option (List Char) :=
  let st := { sp.1 with cur := { sp.1.cur with colStart := m.1 } }
  if m.2 ∈ oneLinerTags then (st, sp.2)
  else
    let st :=
      match sp.2 with
      | none => st
      | some nm =>
        { st with cur := { st.cur with
            children := st.cur.children ++ [Node.mk nm [] [] 0 0 0 0 []] } }
    (st, some m.2)

/-- Descent into a newly created node (lines 106-110). -/
def descend (st : PState) (nm : List Char) (line : List Char) : PState :=
  { stack := st.cur :: st.stack,
    cur := { name := nm, lines := [line], children := [], startLine := st.nln,
             colStart := 0, colEnd := 0 },
    nln := 0 }

/-- One close-tag match (lines 114-127).  Python first runs
`current_node.end = match.end(0)` and then the name test; so in the
ascend branch the finished child's `colEnd` is the fresh `m.2`, and in
the other branches `m.2` is recorded on the still-current node.  On a
name match with a parent, `end_line` is finalized, the parser ascends,
and the closing line is pushed onto the parent unless the node was
opened on this same line. -/
def closeStep (st : PState) (m : List Char × Nat) (line : List Char) : PState :=
  if m.1 = st.cur.name then
    match st.stack with
    | [] => { st with cur := { st.cur with colEnd := m.2 } }
    | parent :: rest =>
      { stack := rest,
        cur := { parent with
                 children := parent.children ++
                   [Node.mk st.cur.name st.cur.lines [] st.cur.startLine
                     (if st.nln = 0 then st.cur.startLine else st.cur.startLine + 1)
                     st.cur.colStart m.2 st.cur.children],
                 lines := if st.nln = 0 then parent.lines else parent.lines ++ [line] },
        nln := if st.nln = 0 then st.cur.startLine else st.cur.startLine + 1 }
  else { st with cur := { st.cur with colEnd := m.2 } }

/-- `current_node.push_line(line)` at the top of the loop body. -/
def pushCurLine (st : PState) (line : List Char) : PState :=
  { st with cur := { st.cur with lines := st.cur.lines ++ [line] } }

/-- The open-tag loop of lines 96-103. -/
def openPhase (st : PState) (line : List Char) : PState × Option (List Char) :=
  (openMatches line).foldl openFold (st, none)

/-- Lines 106-110: descend into the last created node, if any. -/
def descendPhase (sp : PState × Option (List Char)) (line : List Char) : PState :=
  match sp.2 with
  | some nm => descend sp.1 nm line
  | none => sp.1

/-- The close-tag loop of lines 113-127. -/
def closePhase (st : PState) (line : List Char) : PState :=
  (closeMatches line).foldl (fun s m => closeStep s m line) st

/-- `new_line_number += 1` at the end of the loop body. -/
def bumpNln (st : PState) : PState := { st with nln := st.nln + 1 }

/-- Processing of one source line (the body of the `for line` loop). -/
def lineStep (st : PState) (line : List Char) : PState :=
  bumpNln (closePhase (descendPhase (openPhase (pushCurLine st line) line) line) line)

def runParse (ls : List (List Char)) : PState := ls.foldl lineStep initState

/-- At end of file unclosed nodes stay attached to their parent with no
finalized `end_line` (the constructor default `0`). -/
def collapse : List Frame → Frame → Node
  | [], cur => frameToNode cur 0
  | parent :: rest, cur =>
    collapse rest { parent with children := parent.children ++ [frameToNode cur 0] }

inductive PErr where
  /-- duplicated reference index (lines 155-157): the log message carries
  the index and both conflicting links, then `raise SystemExit`. -/
  | dupRef (idx : Nat) (newLink oldLink : List Char)
  /-- `int('')` on an empty digit group (line 153). -/
  | valueError
  /-- `raise ValueError` for an empty root capture (lines 131-132). -/
  | parseError
  /-- `line[:child.start] + child_output + line[child.end:]` concatenates
  a `str` with a `list` (line 266). -/
  | typeError
  /-- `output[child.start_line]` out of range (line 264). -/
  | indexError
deriving DecidableEq

/-- `parse_file`, on the document text. -/
def parseDoc (doc : List Char) : Except PErr Node :=
  let st := runParse (readLines doc)
  let root := collapse st.stack st.cur
  if root.lines.isEmpty then .error .parseError else .ok root

/-! ## The rewriter (`process_nodes`, lines 137-248) -/

def ignoredNodes : List (List Char) := ["code-block".data]

def digitsToNat (ds : List Char) : Nat :=
  ds.foldl (fun a c => a * 10 + (c.toNat - '0'.toNat)) 0

def lookupNat (acc : List (Nat × List Char)) (n : Nat) : Option (List Char) :=
  match acc with
  | [] => none
  | (k, v) :: rest => if k = n then some v else lookupNat rest n

def lookupUrl (acc : List (List Char × Nat)) (u : List Char) : Option Nat :=
  match acc with
  | [] => none
  | (k, v) :: rest => if k = u then some v else lookupUrl rest u

/-- Reference extraction (lines 149-160): first occurrence per index is
kept, a reused index is the fatal duplicate error, an empty digit group
would crash `int` with `ValueError`. -/
def collectRefs (acc : List (Nat × List Char)) :
    List (List Char × List Char) → Except PErr (List (Nat × List Char))
  | [] => .ok acc
  | (ds, link) :: rest =>
    if ds.isEmpty then .error .valueError
    else
      let n := digitsToNat ds
      match lookupNat acc n with
      | some old => .error (.dupRef n link old)
      | none => collectRefs (acc ++ [(n, link)]) rest

/-- `OrderedDict(sorted(d.items()))`: insertion sort by key (keys are
distinct wherever this is used). -/
def insertByKey (p : Nat × List Char) : List (Nat × List Char) → List (Nat × List Char)
  | [] => [p]
  | q :: qs => if p.1 < q.1 then p :: q :: qs else q :: insertByKey p qs

def sortByKey : List (Nat × List Char) → List (Nat × List Char)
  | [] => []
  | p :: ps => insertByKey p (sortByKey ps)

/-- The orphan-reference warning condition (lines 163-168): it fires only
when the node collected no footnote definitions at all but its content
contains a reference-syntax link.  The warning is a log side effect; this
observer returns whether it is emitted (`false` when extraction already
raised). -/
def orphanWarning (nm : List Char) (ls : List (List Char)) : Bool :=
  if nm ∈ ignoredNodes then false
  else
    match collectRefs [] (footnotes (joinLines ls)) with
    | .ok refs => (sortByKey refs).isEmpty && refSearch (joinLines ls)
    | .error _ => false

/-- Location of the footnote block in the original lines (lines 174-180).
Note `if start_line:` is false for a block starting at line 0. -/
def footerRange (ls : List (List Char)) : Nat × Nat :=
  ls.enum.foldl
    (fun (se : Nat × Nat) (p : Nat × List Char) =>
      if lineHasFootnote p.2 then
        if se.1 ≠ 0 then (se.1, p.1 + 1) else (p.1, se.2)
      else se)
    (0, 0)

/-- `f'][{i}]'`. -/
def refPat (i : Nat) : List Char := ']' :: '[' :: (Nat.repr i).data ++ [']']

/-- `f']({v})'`. -/
def inlinePat (v : List Char) : List Char := ']' :: '(' :: v ++ [')']

/-- Inverted reference mapping, first index per URL (lines 188-191). -/
def flipRefs (items : List (Nat × List Char)) : List (List Char × Nat) :=
  items.foldl
    (fun acc p => if lookupUrl acc p.2 = none then acc ++ [(p.2, p.1)] else acc) []

/-- Python dict assignment `d[n] = u`: overwrite in place or append. -/
def updateRef : List (Nat × List Char) → Nat → List Char → List (Nat × List Char)
  | [], n, u => [(n, u)]
  | (k, v) :: rest, n, u =>
    if k = n then (k, u) :: rest else (k, v) :: updateRef rest n u

/-- The loop body of lines 194-198: keep an inline link only when its URL
already had an index; `if inline_ref_num:` also drops a (theoretical)
index 0, `0` being falsy. -/
def inlineStep (flipped : List (List Char × Nat)) (acc : List (Nat × List Char))
    (url : List Char) : List (Nat × List Char) :=
  match lookupUrl flipped url with
  | some n => if n ≠ 0 then updateRef acc n url else acc
  | none => acc

/-- Collection of inline links whose URL already had an index
(lines 192-198). -/
def collectInline (flipped : List (List Char × Nat)) (urls : List (List Char)) :
    List (Nat × List Char) :=
  urls.foldl (inlineStep flipped) []

/-- `groupby(enumerate(data), lambda ix: ix[0] - ix[1])`: maximal runs of
enumerated pairs with constant `index - key`. -/
def runKey (p : Nat × Nat) : Int := (p.1 : Int) - (p.2 : Int)

def groupRunsAux (cur : List (Nat × Nat)) (k : Int) :
    List (Nat × Nat) → List (List (Nat × Nat))
  | [] => [cur.reverse]
  | p :: rest =>
    if runKey p = k then groupRunsAux (p :: cur) k rest
    else cur.reverse :: groupRunsAux [p] (runKey p) rest

def groupRuns : List (Nat × Nat) → List (List (Nat × Nat))
  | [] => []
  | p :: rest => groupRunsAux [p] (runKey p) rest

/-- Renumbering (lines 203-213): `new[x[0] + 1] = inline_refs[x[1]]` over
every enumerated pair of every run.  The `none` branch of the lookup is
unreachable (`x[1]` is a key of `inline_refs`). -/
def renumber (irefs : List (Nat × List Char)) : List (Nat × List Char) :=
  (groupRuns (irefs.map Prod.fst).enum).foldl
    (fun acc run =>
      run.foldl
        (fun acc p =>
          match lookupNat irefs p.2 with
          | some v => updateRef acc (p.1 + 1) v
          | none => acc)
        acc)
    []

/-- Control-character stripping before `splitlines` (lines 226-233). -/
def stripControls (s : List Char) : List Char :=
  let s := pyReplace s ['\u2029'] []
  let s := pyReplace s ['\u2028'] []
  let s := pyReplace s ['\x85'] []
  let s := pyReplace s ['\x1e'] []
  let s := pyReplace s ['\x1d'] []
  let s := pyReplace s ['\x1c'] []
  let s := pyReplace s ['\x0c'] []
  pyReplace s ['\x0b'] []

/-- The regenerated definition block `[f"[{i}]: {link}\n" ...]`. -/
def footerLines (irefs : List (Nat × List Char)) : List (List Char) :=
  irefs.map (fun p => '[' :: (Nat.repr p.1).data ++ ']' :: ':' :: ' ' :: p.2 ++ ['\n'])

/-- Python slice assignment `l[a:b] = r` for non-negative indices. -/
def pySliceAssign (l : List (List Char)) (a b : Nat) (r : List (List Char)) :
    List (List Char) :=
  l.take a ++ r ++ l.drop (max a b)

/-- The per-node rewrite (lines 142-244 of `process_nodes`, without the
child recursion): from the node's name and raw lines to its
`modified_lines`.  `hasParent` is the `node.parent` truthiness used for
the insertion point of a fresh definition block. -/
def rewriteLines (hasParent : Bool) (nm : List Char) (ls : List (List Char)) :
    Except PErr (List (List Char)) :=
  if nm ∈ ignoredNodes then .ok ls
  else
    match collectRefs [] (footnotes (joinLines ls)) with
    | .error e => .error e
    | .ok refs =>
      let allReferences := sortByKey refs
      let se := footerRange ls
      let content1 := allReferences.foldl
        (fun c p => pyReplace c (refPat p.1) (inlinePat p.2)) (joinLines ls)
      let flipped := flipRefs allReferences
      let inlineRefs := sortByKey (renumber (sortByKey
        (collectInline flipped (inlineLinks content1))))
      let content2 := inlineRefs.foldl
        (fun c p => pyReplace c (inlinePat p.2) (refPat p.1)) content1
      let modified0 := splitKeepEnds (stripControls content2)
      let startL := if se.1 = 0 then
          (if hasParent then modified0.length - 1 else modified0.length)
        else se.1
      let endL0 := if se.1 = 0 then startL else se.2
      let endL := if endL0 = 0 then startL + 1 else endL0
      .ok (pySliceAssign modified0 startL endL (footerLines inlineRefs))

/-! `process_nodes`: rewrite this node, then its children in order; the
fatal errors of any node abort the whole walk. -/

mutual
def processNodes (hasParent : Bool) : Node → Except PErr Node
  | .mk nm ls _ sl el cs ce kids =>
    match rewriteLines hasParent nm ls with
    | .error e => .error e
    | .ok ml =>
      match processKids kids with
      | .error e => .error e
      | .ok kids' => .ok (.mk nm ls ml sl el cs ce kids')

def processKids : List Node → Except PErr (List Node)
  | [] => .ok []
  | c :: rest =>
    match processNodes true c with
    | .error e => .error e
    | .ok c' =>
      match processKids rest with
      | .error e => .error e
      | .ok rest' => .ok (c' :: rest')
end

/-! ## The reassembler (`assemble_nodes`, lines 251-275) -/

/-- The splice of one child's assembled output into the parent buffer.
For an inline child (`start_line == end_line`) with non-empty output the
source evaluates `line[:child.start] + child_output + line[child.end:]`,
a `str + list` concatenation: `TypeError`.  With empty output the line is
stored back unchanged.  A multi-line child replaces the slice
`[start_line : end_line + 1]`. -/
def spliceChild (out : List (List Char)) (sL eL _cS _cE : Nat)
    (cOut : List (List Char)) : Except PErr (List (List Char)) :=
  if sL = eL then
    match out.get? sL with
    | none => .error .indexError
    | some line =>
      if cOut.isEmpty then .ok (out.set sL line)
      else .error .typeError
  else .ok (pySliceAssign out sL (eL + 1) cOut)

/-! `assemble_nodes`: children are visited in reverse insertion order,
each child fully assembled (post-order) and then spliced. -/

mutual
def assembleNode : Node → Except PErr (List (List Char))
  | .mk _ _ ml _ _ _ _ kids => assembleKids kids ml

def assembleKids : List Node → List (List Char) → Except PErr (List (List Char))
  | [], out => .ok out
  | c :: rest, out =>
    match assembleKids rest out with
    | .error e => .error e
    | .ok out' =>
      match assembleNode c with
      | .error e => .error e
      | .ok cOut => spliceChild out' c.startLine c.endLine c.colStart c.colEnd cOut
end

/-! ## The pipeline (`format_link_file`, lines 291-308)

The filesystem read is modelled by taking the document text directly:
parse, rewrite every node, reassemble, join. -/

def formatLinkChars (doc : List Char) : Except PErr (List Char) :=
  match parseDoc doc with
  | .error e => .error e
  | .ok root =>
    match processNodes false root with
    | .error e => .error e
    | .ok root' =>
      match assembleNode root' with
      | .error e => .error e
      | .ok outLines => .ok (joinLines outLines)

def formatLinkFile (doc : String) : Except PErr String :=
  match formatLinkChars doc.data with
  | .ok cs => .ok (String.mk cs)
  | .error e => .error e

/-! ## Helper lemmas -/

instance {ε α : Type} [DecidableEq ε] [DecidableEq α] : DecidableEq (Except ε α) := fun x y =>
  match x, y with
  | .ok a, .ok b =>
    if h : a = b then isTrue (congrArg Except.ok h)
    else isFalse (fun hh => h (Except.ok.inj hh))
  | .error a, .error b =>
    if h : a = b then isTrue (congrArg Except.error h)
    else isFalse (fun hh => h (Except.error.inj hh))
  | .ok _, .error _ => isFalse (fun hh => Except.noConfusion hh)
  | .error _, .ok _ => isFalse (fun hh => Except.noConfusion hh)

theorem mem_updateRef (acc : List (Nat × List Char)) (n : Nat) (u : List Char)
    (p : Nat × List Char) (hp : p ∈ updateRef acc n u) : p = (n, u) ∨ p ∈ acc := by
  induction acc with
  | nil => simpa [updateRef] using hp
  | cons q rest ih =>
    obtain ⟨k, v⟩ := q
    by_cases hk : k = n
    · subst hk
      simp only [updateRef, if_pos rfl] at hp
      rcases List.mem_cons.mp hp with h | h
      · exact Or.inl h
      · exact Or.inr (List.mem_cons_of_mem _ h)
    · simp only [updateRef, if_neg hk] at hp
      rcases List.mem_cons.mp hp with h | h
      · exact Or.inr (h ▸ List.mem_cons_self _ _)
      · rcases ih h with h' | h'
        · exact Or.inl h'
        · exact Or.inr (List.mem_cons_of_mem _ h')

theorem collectInline_aux (flipped : List (List Char × Nat)) (urls : List (List Char)) :
    ∀ acc, (∀ p ∈ acc, lookupUrl flipped p.2 = some p.1) →
      ∀ p ∈ urls.foldl (inlineStep flipped) acc, lookupUrl flipped p.2 = some p.1 := by
  induction urls with
  | nil => intro acc hacc p hp; exact hacc p hp
  | cons url rest ih =>
    intro acc hacc p hp
    simp only [List.foldl_cons] at hp
    refine ih (inlineStep flipped acc url) ?_ p hp
    intro q hq
    unfold inlineStep at hq
    cases hlk : lookupUrl flipped url with
    | none => rw [hlk] at hq; exact hacc q hq
    | some n =>
      rw [hlk] at hq
      by_cases hn : n ≠ 0
      · replace hq : q ∈ updateRef acc n url := by simpa [hn] using hq
        rcases mem_updateRef acc n url q hq with h | h
        · rw [h]; exact hlk
        · exact hacc q h
      · replace hq : q ∈ acc := by simpa [hn] using hq
        exact hacc q hq

/-! ## Duplicate-index detection -/

/-- Scanning `keys` left to right with already-seen keys `seen`, some key
repeats. -/
def hasDupAgainst (seen : List Nat) : List Nat → Bool
  | [] => false
  | k :: rest => seen.contains k || hasDupAgainst (seen ++ [k]) rest

/-- The text contains two footnote definitions sharing an integer index
(and every definition has a non-empty digit group, which rules out the
separate `int('')` crash). -/
def dupFootnote (content : List Char) : Bool :=
  (footnotes content).all (fun m => !m.1.isEmpty) &&
  hasDupAgainst [] ((footnotes content).map (fun m => digitsToNat m.1))

mutual
def nodeHasDup : Node → Bool
  | .mk nm ls _ _ _ _ _ kids =>
    (decide (nm ∉ ignoredNodes) && dupFootnote (joinLines ls)) || kidsHaveDup kids

def kidsHaveDup : List Node → Bool
  | [] => false
  | c :: rest => nodeHasDup c || kidsHaveDup rest
end

theorem lookupNat_isSome (acc : List (Nat × List Char)) (n : Nat) :
    (lookupNat acc n).isSome = (acc.map Prod.fst).contains n := by
  induction acc with
  | nil => simp [lookupNat]
  | cons q rest ih =>
    obtain ⟨k, v⟩ := q
    by_cases hk : k = n
    · subst hk; simp [lookupNat]
    · have hbeq : (n == k) = false := beq_eq_false_iff_ne.mpr (Ne.symm hk)
      simp only [lookupNat, if_neg hk, ih, List.map_cons, List.contains_cons, hbeq,
        Bool.false_or]

theorem collectRefs_dup (ms : List (List Char × List Char)) :
    ∀ acc, (∀ m ∈ ms, m.1.isEmpty = false) →
      hasDupAgainst (acc.map Prod.fst) (ms.map fun m => digitsToNat m.1) = true →
      ∃ i a b, collectRefs acc ms = .error (.dupRef i a b) := by
  induction ms with
  | nil => intro acc _ h; simp [hasDupAgainst] at h
  | cons m rest ih =>
    obtain ⟨ds, link⟩ := m
    intro acc hne hd
    have hds : ds.isEmpty = false := hne (ds, link) (List.mem_cons_self _ _)
    simp only [List.map_cons, hasDupAgainst, Bool.or_eq_true] at hd
    cases hlk : lookupNat acc (digitsToNat ds) with
    | some old =>
      exact ⟨digitsToNat ds, link, old, by simp [collectRefs, hds, hlk]⟩
    | none =>
      have hnc : (acc.map Prod.fst).contains (digitsToNat ds) = false := by
        have := lookupNat_isSome acc (digitsToNat ds)
        rw [hlk] at this; simpa using this.symm
      rcases hd with hd | hd
      · rw [hnc] at hd; cases hd
      · have hres := ih (acc ++ [(digitsToNat ds, link)])
          (fun q hq => hne q (List.mem_cons_of_mem _ hq)) (by simpa using hd)
        obtain ⟨i, a, b, hres⟩ := hres
        refine ⟨i, a, b, ?_⟩
        simp only [collectRefs, hds, Bool.false_eq_true, if_false, hlk]
        exact hres

theorem rewriteLines_dup (hp : Bool) (nm : List Char) (ls : List (List Char))
    (hnm : nm ∉ ignoredNodes) (hd : dupFootnote (joinLines ls) = true) :
    ∃ i a b, rewriteLines hp nm ls = .error (.dupRef i a b) := by
  simp only [dupFootnote, Bool.and_eq_true, List.all_eq_true] at hd
  obtain ⟨hne, hdup⟩ := hd
  have := collectRefs_dup (footnotes (joinLines ls)) []
    (fun m hm => by simpa using hne m hm) (by simpa using hdup)
  obtain ⟨i, a, b, hcol⟩ := this
  exact ⟨i, a, b, by simp only [rewriteLines, if_neg hnm, hcol]⟩

mutual
theorem processNodes_dup (hp : Bool) :
    ∀ n : Node, nodeHasDup n = true → ∃ e, processNodes hp n = .error e
  | .mk nm ls ml sl el cs ce kids => by
    intro h
    simp only [nodeHasDup, Bool.or_eq_true, Bool.and_eq_true, decide_eq_true_eq] at h
    rcases h with ⟨hnm, hdf⟩ | hkids
    · obtain ⟨i, a, b, hrw⟩ := rewriteLines_dup hp nm ls hnm hdf
      exact ⟨.dupRef i a b, by simp only [processNodes, hrw]⟩
    · cases hrw : rewriteLines hp nm ls with
      | error e => exact ⟨e, by simp only [processNodes, hrw]⟩
      | ok ml' =>
        obtain ⟨e, hk⟩ := kidsHaveDup_err kids hkids
        exact ⟨e, by simp only [processNodes, hrw, hk]⟩

theorem kidsHaveDup_err :
    ∀ ks : List Node, kidsHaveDup ks = true → ∃ e, processKids ks = .error e
  | [] => by intro h; simp [kidsHaveDup] at h
  | c :: rest => by
    intro h
    simp only [kidsHaveDup, Bool.or_eq_true] at h
    rcases h with h | h
    · obtain ⟨e, hc⟩ := processNodes_dup true c h
      exact ⟨e, by simp only [processKids, hc]⟩
    · cases hc : processNodes true c with
      | error e => exact ⟨e, by simp only [processKids, hc]⟩
      | ok c' =>
        obtain ⟨e, hr⟩ := kidsHaveDup_err rest h
        exact ⟨e, by simp only [processKids, hc, hr]⟩
end

/-! ## Parser invariant: the root's captured lines

`root.lines` is empty exactly when the document has no lines: the first
line is always pushed onto the root (the initial current node), and no
step of the parser ever removes a line from the bottom-most frame. -/

/-- The `lines` of the root node represented by a parser state: the
bottom-most stack frame, or the current node when the stack is empty. -/
def rootLinesOf (stack : List Frame) (cur : Frame) : List (List Char) :=
  match stack.getLast? with
  | some f => f.lines
  | none => cur.lines

theorem rootLinesOf_congr (s : List Frame) (c c' : Frame) (h : c'.lines = c.lines) :
    rootLinesOf s c' = rootLinesOf s c := by
  unfold rootLinesOf
  cases s.getLast? <;> simp [h]

theorem rootLinesOf_cons_cons (f g : Frame) (s : List Frame) (c : Frame) :
    rootLinesOf (f :: g :: s) c = rootLinesOf (g :: s) c := by
  unfold rootLinesOf
  rw [List.getLast?_cons_cons]

theorem rootLinesOf_single (f : Frame) (c : Frame) : rootLinesOf [f] c = f.lines := by
  unfold rootLinesOf
  simp

theorem rootLinesOf_any : ∀ s : List Frame, s ≠ [] → ∀ c c' : Frame,
    rootLinesOf s c = rootLinesOf s c'
  | [], h, _, _ => absurd rfl h
  | [f], _, c, c' => by rw [rootLinesOf_single, rootLinesOf_single]
  | f :: g :: s, _, c, c' => by
    rw [rootLinesOf_cons_cons, rootLinesOf_cons_cons]
    exact rootLinesOf_any (g :: s) (by simp) c c'

theorem collapse_lines (stack : List Frame) :
    ∀ cur : Frame, (collapse stack cur).lines = rootLinesOf stack cur := by
  induction stack with
  | nil => intro cur; rfl
  | cons parent rest ih =>
    intro cur
    show (collapse rest _).lines = _
    rw [ih]
    cases rest with
    | nil => rw [rootLinesOf_single]; rfl
    | cons f fs =>
      rw [rootLinesOf_cons_cons]
      exact rootLinesOf_any (f :: fs) (by simp) _ _

theorem openFold_frames (ms : List (Nat × List Char)) :
    ∀ stp : PState × Option (List Char),
      (List.foldl openFold stp ms).1.stack = stp.1.stack ∧
      (List.foldl openFold stp ms).1.cur.lines = stp.1.cur.lines := by
  induction ms with
  | nil => intro stp; exact ⟨rfl, rfl⟩
  | cons m rest ih =>
    intro stp
    obtain ⟨st, pend⟩ := stp
    rw [List.foldl_cons]
    have h1 : (openFold (st, pend) m).1.stack = st.stack ∧
        (openFold (st, pend) m).1.cur.lines = st.cur.lines := by
      cases pend <;> by_cases hm : m.2 ∈ oneLinerTags <;> simp [openFold, hm]
    have h2 := ih (openFold (st, pend) m)
    exact ⟨h2.1.trans h1.1, h2.2.trans h1.2⟩

theorem pushCurLine_root (st : PState) (l : List Char)
    (h : rootLinesOf st.stack st.cur ≠ [] ∨ st.stack = []) :
    rootLinesOf (pushCurLine st l).stack (pushCurLine st l).cur ≠ [] := by
  show rootLinesOf st.stack { st.cur with lines := st.cur.lines ++ [l] } ≠ []
  cases hs : st.stack with
  | nil => unfold rootLinesOf; simp
  | cons f fs =>
    rcases h with h | h
    · rw [hs] at h
      rw [rootLinesOf_any (f :: fs) (by simp) _ st.cur]
      exact h
    · rw [hs] at h; cases h
  
theorem openPhase_root (st : PState) (l : List Char) :
    rootLinesOf (openPhase st l).1.stack (openPhase st l).1.cur =
      rootLinesOf st.stack st.cur := by
  have h := openFold_frames (openMatches l) (st, none)
  show rootLinesOf ((openMatches l).foldl openFold (st, none)).1.stack
      ((openMatches l).foldl openFold (st, none)).1.cur = _
  rw [h.1]
  exact rootLinesOf_congr _ _ _ h.2

theorem rootLinesOf_descend (st : PState) (nm : List Char) (line : List Char) :
    rootLinesOf (descend st nm line).stack (descend st nm line).cur =
      rootLinesOf st.stack st.cur := by
  show rootLinesOf (st.cur :: st.stack)
      { name := nm, lines := [line], children := [], startLine := st.nln,
        colStart := 0, colEnd := 0 } = rootLinesOf st.stack st.cur
  cases hs : st.stack with
  | nil => rw [rootLinesOf_single]; unfold rootLinesOf; simp
  | cons f fs =>
    rw [rootLinesOf_cons_cons]
    exact rootLinesOf_any (f :: fs) (by simp) _ st.cur

theorem descendPhase_root (sp : PState × Option (List Char)) (l : List Char) :
    rootLinesOf (descendPhase sp l).stack (descendPhase sp l).cur =
      rootLinesOf sp.1.stack sp.1.cur := by
  obtain ⟨st, pend⟩ := sp
  cases pend with
  | none => rfl
  | some nm => exact rootLinesOf_descend st nm l

theorem closeStep_root (st : PState) (m : List Char × Nat) (line : List Char)
    (h : rootLinesOf st.stack st.cur ≠ []) :
    rootLinesOf (closeStep st m line).stack (closeStep st m line).cur ≠ [] := by
  by_cases hname : m.1 = st.cur.name
  · cases hs : st.stack with
    | nil =>
      have he : closeStep st m line = { st with cur := { st.cur with colEnd := m.2 } } := by
        unfold closeStep
        rw [if_pos hname, hs]
      rw [he]
      show rootLinesOf st.stack { st.cur with colEnd := m.2 } ≠ []
      rw [rootLinesOf_congr st.stack st.cur { st.cur with colEnd := m.2 } rfl]
      exact h
    | cons parent rest =>
      rw [hs] at h
      cases rest with
      | nil =>
        have he : closeStep st m line =
            { stack := [],
              cur := { parent with
                       children := parent.children ++
                         [Node.mk st.cur.name st.cur.lines [] st.cur.startLine
                           (if st.nln = 0 then st.cur.startLine else st.cur.startLine + 1)
                           st.cur.colStart m.2 st.cur.children],
                       lines := if st.nln = 0 then parent.lines
                                else parent.lines ++ [line] },
              nln := if st.nln = 0 then st.cur.startLine else st.cur.startLine + 1 } := by
          unfold closeStep
          rw [if_pos hname, hs]
        rw [he]
        have hp : parent.lines ≠ [] := by
          rw [rootLinesOf_single] at h; exact h
        show rootLinesOf [] _ ≠ []
        unfold rootLinesOf
        by_cases hn : st.nln = 0 <;> simp [hn, hp]
      | cons f fs =>
        have he : closeStep st m line =
            { stack := f :: fs,
              cur := { parent with
                       children := parent.children ++
                         [Node.mk st.cur.name st.cur.lines [] st.cur.startLine
                           (if st.nln = 0 then st.cur.startLine else st.cur.startLine + 1)
                           st.cur.colStart m.2 st.cur.children],
                       lines := if st.nln = 0 then parent.lines
                                else parent.lines ++ [line] },
              nln := if st.nln = 0 then st.cur.startLine else st.cur.startLine + 1 } := by
          unfold closeStep
          rw [if_pos hname, hs]
        rw [he]
        rw [rootLinesOf_cons_cons] at h
        show rootLinesOf (f :: fs) _ ≠ []
        rw [rootLinesOf_any (f :: fs) (by simp) _ st.cur]
        exact h
  · have he : closeStep st m line = { st with cur := { st.cur with colEnd := m.2 } } := by
      unfold closeStep
      rw [if_neg hname]
    rw [he]
    show rootLinesOf st.stack { st.cur with colEnd := m.2 } ≠ []
    rw [rootLinesOf_congr st.stack st.cur { st.cur with colEnd := m.2 } rfl]
    exact h

theorem closeFold_root (ms : List (List Char × Nat)) (line : List Char) :
    ∀ st : PState, rootLinesOf st.stack st.cur ≠ [] →
      rootLinesOf (ms.foldl (fun s m => closeStep s m line) st).stack
        (ms.foldl (fun s m => closeStep s m line) st).cur ≠ [] := by
  induction ms with
  | nil => intro st h; exact h
  | cons m rest ih =>
    intro st h
    rw [List.foldl_cons]
    exact ih (closeStep st m line) (closeStep_root st m line h)

theorem closePhase_root (st : PState) (l : List Char)
    (h : rootLinesOf st.stack st.cur ≠ []) :
    rootLinesOf (closePhase st l).stack (closePhase st l).cur ≠ [] :=
  closeFold_root (closeMatches l) l st h

theorem lineStep_root (st : PState) (l : List Char)
    (h : rootLinesOf st.stack st.cur ≠ [] ∨ st.stack = []) :
    rootLinesOf (lineStep st l).stack (lineStep st l).cur ≠ [] := by
  have h1 := pushCurLine_root st l h
  have h2 : rootLinesOf (descendPhase (openPhase (pushCurLine st l) l) l).stack
      (descendPhase (openPhase (pushCurLine st l) l) l).cur ≠ [] := by
    rw [descendPhase_root, openPhase_root]
    exact h1
  have h3 := closePhase_root (descendPhase (openPhase (pushCurLine st l) l) l) l h2
  exact h3

theorem runParse_root (ls : List (List Char)) (h : ls ≠ []) :
    rootLinesOf (runParse ls).stack (runParse ls).cur ≠ [] := by
  cases ls with
  | nil => exact absurd rfl h
  | cons l rest =>
    have h0 : rootLinesOf (lineStep initState l).stack (lineStep initState l).cur ≠ [] :=
      lineStep_root initState l (Or.inr rfl)
    show rootLinesOf ((l :: rest).foldl lineStep initState).stack
      ((l :: rest).foldl lineStep initState).cur ≠ []
    rw [List.foldl_cons]
    clear h
    generalize hst : lineStep initState l = st0 at h0
    clear hst
    induction rest generalizing st0 with
    | nil => exact h0
    | cons l2 rest2 ih =>
      rw [List.foldl_cons]
      exact ih (lineStep st0 l2) (lineStep_root st0 l2 (Or.inl h0))

theorem insertByKey_ne_nil (p : Nat × List Char) (l : List (Nat × List Char)) :
    insertByKey p l ≠ [] := by
  cases l with
  | nil => simp [insertByKey]
  | cons q qs =>
    simp only [insertByKey]
    split <;> simp

theorem sortByKey_isEmpty (l : List (Nat × List Char)) :
    (sortByKey l).isEmpty = l.isEmpty := by
  cases l with
  | nil => rfl
  | cons p ps =>
    simp only [sortByKey]
    cases h : insertByKey p (sortByKey ps) with
    | nil => exact absurd h (insertByKey_ne_nil p (sortByKey ps))
    | cons q qs => rfl

/-! ## Synthetic trees for the reassembly theorems -/

/-- A leaf child with recorded line range `[s, e]` and rewritten payload
`m` (columns unused for multi-line splices). -/
def mkLeaf (s e : Nat) (m : List (List Char)) : Node :=
  Node.mk ("tab".data) [] m s e 0 0 []

def mkLeaves : List (Nat × Nat × List (List Char)) → List Node
  | [] => []
  | (s, e, m) :: rest => mkLeaf s e m :: mkLeaves rest

/-- A root whose rewrite produced `buf` and whose children are `kids`. -/
def mkRoot (buf : List (List Char)) (kids : List Node) : Node :=
  Node.mk ("root".data) [] buf 0 0 0 0 kids

/-- Sorted, pairwise-disjoint, multi-line ranges within a buffer of `n`
lines, the first range starting at or after `k`. -/
def chainOk (k n : Nat) : List (Nat × Nat × List (List Char)) → Bool
  | [] => true
  | (s, e, _) :: rest =>
    decide (k ≤ s) && decide (s < e) && decide (e + 1 ≤ n) && chainOk (e + 1) n rest

/-- The left-to-right reading of a spliced buffer: the buffer segment
before each range, then that child's payload verbatim, then the untouched
tail after the last range. -/
def segsFrom (buf : List (List Char)) (k : Nat) :
    List (Nat × Nat × List (List Char)) → List (List Char)
  | [] => buf.drop k
  | (s, e, m) :: rest => (buf.drop k).take (s - k) ++ m ++ segsFrom buf (e + 1) rest

theorem assembleKids_decomp (rs : List (Nat × Nat × List (List Char))) :
    ∀ (buf : List (List Char)) (k : Nat), chainOk k buf.length rs = true →
      assembleKids (mkLeaves rs) buf = .ok (buf.take k ++ segsFrom buf k rs) := by
  induction rs with
  | nil =>
    intro buf k _
    simp [mkLeaves, assembleKids, segsFrom]
  | cons hd rest ih =>
    obtain ⟨s, e, m⟩ := hd
    intro buf k h
    simp only [chainOk, Bool.and_eq_true, decide_eq_true_eq] at h
    obtain ⟨⟨⟨hks, hse⟩, hen⟩, hrest⟩ := h
    have hr := ih buf (e + 1) hrest
    have hlenA : (buf.take (e + 1)).length = e + 1 := by
      rw [List.length_take]; omega
    have htake : (buf.take (e + 1) ++ segsFrom buf (e + 1) rest).take s = buf.take s := by
      rw [List.take_append_of_le_length (by omega), List.take_take]
      congr 1; omega
    have hdrop : (buf.take (e + 1) ++ segsFrom buf (e + 1) rest).drop (e + 1) =
        segsFrom buf (e + 1) rest := by
      rw [List.drop_append_eq_append_drop, List.drop_of_length_le (le_of_eq hlenA),
        hlenA, Nat.sub_self, List.drop_zero, List.nil_append]
    have hsplit : buf.take s = buf.take k ++ (buf.drop k).take (s - k) := by
      have : s = k + (s - k) := by omega
      rw [this, List.take_add, Nat.add_sub_cancel_left]
    simp only [mkLeaves, assembleKids, hr, mkLeaf, assembleNode, Node.startLine,
      Node.endLine, Node.colStart, Node.colEnd, spliceChild]
    rw [if_neg (by omega)]
    simp only [pySliceAssign]
    have hmax : max s (e + 1) = e + 1 := by omega
    rw [hmax, htake, hdrop, hsplit, segsFrom]
    simp [List.append_assoc]

/-! ## Round-trip identities for link-free documents -/

/-- The characters stripped by `stripControls`. -/
def controlChars : List Char :=
  ['\u2029', '\u2028', '\x85', '\x1e', '\x1d', '\x1c', '\x0c', '\x0b']

theorem joinLines_splitAux : ∀ (s acc : List Char),
    joinLines (splitAux acc s) = acc.reverse ++ s := by
  intro s
  induction s with
  | nil =>
    intro acc
    cases acc with
    | nil => rfl
    | cons a as => simp [splitAux, joinLines]
  | cons c cs ih =>
    intro acc
    by_cases hc : c = '\n'
    · subst hc
      simp [splitAux, joinLines, ih []]
    · simpa [splitAux, hc, List.append_assoc] using ih (c :: acc)

theorem joinLines_splitKeepEnds (s : List Char) : joinLines (splitKeepEnds s) = s := by
  unfold splitKeepEnds
  simpa using joinLines_splitAux s []

theorem replaceFuel_single_id (c : Char) : ∀ (fuel : Nat) (s : List Char), c ∉ s →
    replaceFuel [c] [] fuel s = s := by
  intro fuel
  induction fuel with
  | zero => intro s _; cases s <;> rfl
  | succ n ih =>
    intro s h
    cases s with
    | nil => rfl
    | cons b bs =>
      have hcb : ¬(c = b) := fun he => h (he ▸ List.mem_cons_self _ _)
      have hsw : startsWith [c] (b :: bs) = false := by
        simp [startsWith, hcb]
      simp only [replaceFuel, hsw, Bool.and_false, Bool.false_eq_true, if_false]
      rw [ih bs (fun hx => h (List.mem_cons_of_mem _ hx))]

theorem stripControls_id (s : List Char) (h : ∀ c ∈ s, c ∉ controlChars) :
    stripControls s = s := by
  have hm : ∀ c ∈ controlChars, c ∉ s := fun c hc hs => h c hs hc
  simp only [stripControls, pyReplace]
  rw [replaceFuel_single_id '\u2029' _ _ (hm _ (by decide)),
    replaceFuel_single_id '\u2028' _ _ (hm _ (by decide)),
    replaceFuel_single_id '\x85' _ _ (hm _ (by decide)),
    replaceFuel_single_id '\x1e' _ _ (hm _ (by decide)),
    replaceFuel_single_id '\x1d' _ _ (hm _ (by decide)),
    replaceFuel_single_id '\x1c' _ _ (hm _ (by decide)),
    replaceFuel_single_id '\x0c' _ _ (hm _ (by decide)),
    replaceFuel_single_id '\x0b' _ _ (hm _ (by decide))]

theorem footerRange_aux (ps : List (Nat × List Char)) (se : Nat × Nat)
    (h : ∀ p ∈ ps, (footMatchAt p.2).isSome = false) :
    ps.foldl
      (fun (se : Nat × Nat) (p : Nat × List Char) =>
        if lineHasFootnote p.2 then
          if se.1 ≠ 0 then (se.1, p.1 + 1) else (p.1, se.2)
        else se)
      se = se := by
  induction ps generalizing se with
  | nil => rfl
  | cons p rest ih =>
    rw [List.foldl_cons]
    have hp : lineHasFootnote p.2 = false := h p (List.mem_cons_self _ _)
    rw [hp]
    simp only [Bool.false_eq_true, if_false]
    exact ih se (fun q hq => h q (List.mem_cons_of_mem _ hq))

theorem footerRange_none (ls : List (List Char))
    (h : ∀ l ∈ ls, (footMatchAt l).isSome = false) : footerRange ls = (0, 0) := by
  unfold footerRange
  refine footerRange_aux ls.enum (0, 0) ?_
  intro p hp
  have : p.2 ∈ ls.enum.map Prod.snd := List.mem_map_of_mem Prod.snd hp
  rw [List.enum_map_snd] at this
  exact h p.2 this

theorem collectInline_nil_flipped : ∀ (urls : List (List Char)) (acc : List (Nat × List Char)),
    urls.foldl (inlineStep []) acc = acc := by
  intro urls
  induction urls with
  | nil => intro acc; rfl
  | cons url rest ih => intro acc; rw [List.foldl_cons]; exact ih acc

theorem lineStep_plain (st : PState) (l : List Char)
    (h1 : openMatches l = []) (h2 : closeMatches l = []) :
    lineStep st l =
      { st with cur := { st.cur with lines := st.cur.lines ++ [l] }, nln := st.nln + 1 } := by
  unfold lineStep closePhase descendPhase openPhase pushCurLine bumpNln
  rw [h1, h2]
  rfl

theorem foldl_plain : ∀ (ls : List (List Char)) (st : PState),
    (∀ l ∈ ls, openMatches l = [] ∧ closeMatches l = []) →
    ls.foldl lineStep st =
      { st with
        cur := { st.cur with lines := st.cur.lines ++ ls },
        nln := st.nln + ls.length } := by
  intro ls
  induction ls with
  | nil => intro st _; simp
  | cons l rest ih =>
    intro st h
    rw [List.foldl_cons, lineStep_plain st l (h l (List.mem_cons_self _ _)).1
      (h l (List.mem_cons_self _ _)).2,
      ih _ (fun q hq => h q (List.mem_cons_of_mem _ hq))]
    simp [List.append_assoc]
    omega

theorem rewriteLines_plain (ls : List (List Char))
    (hne : ls ≠ [])
    (hfoot : footnotes (joinLines ls) = [])
    (hline : ∀ l ∈ ls, (footMatchAt l).isSome = false)
    (hctl : ∀ c ∈ joinLines ls, c ∉ controlChars)
    (hsplit : splitKeepEnds (joinLines ls) = ls) :
    rewriteLines false ("root".data) ls = .ok ls := by
  have hfr : footerRange ls = (0, 0) := footerRange_none ls hline
  have hstrip : stripControls (joinLines ls) = joinLines ls := stripControls_id _ hctl
  have hlen : ¬(ls.length = 0) := fun h => hne (List.length_eq_zero.mp h)
  unfold rewriteLines
  rw [if_neg (by decide : ¬(("root".data) ∈ ignoredNodes))]
  rw [hfoot]
  simp only [collectRefs, sortByKey, flipRefs, List.foldl_nil, hfr, collectInline,
    collectInline_nil_flipped, renumber, List.map_nil, List.enum_nil, groupRuns,
    List.map, footerLines, hstrip, hsplit]
  simp only [Bool.false_eq_true, if_false, if_pos rfl, hlen, pySliceAssign,
    Nat.max_self, List.take_of_length_le (Nat.le_refl ls.length),
    List.drop_of_length_le (Nat.le_refl ls.length), List.append_nil]
  simp only [if_true, hlen, if_false, Nat.max_self, List.take_append_drop]

/-! ## Closed-scope documents

A grammar of documents whose shortcode scopes all parse closed: a
document is a list of items, each item a plain line (which may carry
one-liner open markers and close markers that do not name the enclosing
scope), a multi-line scope (open marker line, body of items, close
marker line), or a scope opened and closed on one line.  `renderD` gives
the document lines of an item; `collapsedD` gives the lines the item
contributes to the enclosing node's own capture (a scope contributes
just its open and close lines, exactly as `parse_file` pushes them). -/

inductive SDoc where
  | line (l : List Char)
  | scope (tag openL : List Char) (body : List SDoc) (closeL : List Char)
  | inlineScope (tag l : List Char)

mutual
def renderD : SDoc → List (List Char)
  | .line l => [l]
  | .scope _ o body c => o :: (renderList body ++ [c])
  | .inlineScope _ l => [l]

def renderList : List SDoc → List (List Char)
  | [] => []
  | d :: ds => renderD d ++ renderList ds
end

def collapsedD : SDoc → List (List Char)
  | .line l => [l]
  | .scope _ o _ c => [o, c]
  | .inlineScope _ l => [l]

def collapsedList : List SDoc → List (List Char)
  | [] => []
  | d :: ds => collapsedD d ++ collapsedList ds

/-- The lines captured by a multi-line scope's own node: its open line,
the collapsed body, its close line. -/
def scopeLines (o : List Char) (body : List SDoc) (c : List Char) :
    List (List Char) :=
  o :: (collapsedList body ++ [c])

/-- The line has exactly one open-marker match, naming `tag`. -/
def soleOpen (tag l : List Char) : Bool :=
  match openMatches l with
  | [(_, nm)] => decide (nm = tag)
  | _ => false

/-- The line has exactly one close-marker match, naming `tag`. -/
def soleClose (tag l : List Char) : Bool :=
  match closeMatches l with
  | [(nm, _)] => decide (nm = tag)
  | _ => false

/-- A plain line inside a scope named `encl`: open markers, if any, are
one-liner tags; close markers, if any, do not name the enclosing scope. -/
def lineMarksOk (encl l : List Char) : Bool :=
  (openMatches l).all (fun m => decide (m.2 ∈ oneLinerTags)) &&
  (closeMatches l).all (fun m => decide (m.1 ≠ encl))

/-- Link-free, control-free content capture: no footnote definition in
the concatenated content, none on any single line, no characters the
rewriter strips, and splitting the joined content recovers the lines. -/
def contentOk (ls : List (List Char)) : Bool :=
  decide (footnotes (joinLines ls) = []) &&
  ls.all (fun l => !(footMatchAt l).isSome) &&
  (joinLines ls).all (fun c => decide (c ∉ controlChars)) &&
  decide (splitKeepEnds (joinLines ls) = ls)

/-- Well-formedness of a one-line scope: unique open and close markers
naming the tag, a tag that is neither a one-liner nor ignored, and
link-free content. -/
def wfInl (tag l : List Char) : Bool :=
  soleOpen tag l && soleClose tag l &&
  decide (tag ∉ oneLinerTags) && decide (tag ∉ ignoredNodes) &&
  contentOk [l]

mutual
def wfD (encl : List Char) : SDoc → Bool
  | .line l => lineMarksOk encl l
  | .scope tag o body c =>
    soleOpen tag o &&
    (closeMatches o).all (fun m => decide (m.1 ≠ tag)) &&
    decide (tag ∉ oneLinerTags) &&
    decide (openMatches c = []) &&
    soleClose tag c &&
    (decide (tag ∈ ignoredNodes) || contentOk (scopeLines o body c)) &&
    wfList tag body
  | .inlineScope tag l => wfInl tag l

def wfList (encl : List Char) : List SDoc → Bool
  | [] => true
  | d :: ds => wfD encl d && wfList encl ds
end

/-- The parse trees produced for a list of items whose collapsed lines
start at offset `ofs` of the enclosing node's capture: plain lines
contribute no child, a multi-line scope a child spanning two collapsed
lines, a one-line scope a childless child on one line.  Column fields
are unconstrained (they do not affect reassembly of these trees). -/
inductive Sh : List SDoc → Nat → List Node → Prop where
  | nil (ofs : Nat) : Sh [] ofs []
  | line (l : List Char) (ds : List SDoc) (ofs : Nat) (ks : List Node) :
      Sh ds (ofs + 1) ks → Sh (SDoc.line l :: ds) ofs ks
  | scope (tag o : List Char) (body : List SDoc) (c : List Char) (ds : List SDoc)
      (ofs cs ce : Nat) (bks ks : List Node) :
      Sh body 1 bks → Sh ds (ofs + 2) ks →
      Sh (SDoc.scope tag o body c :: ds) ofs
        (Node.mk tag (scopeLines o body c) [] ofs (ofs + 1) cs ce bks :: ks)
  | inl (tag l : List Char) (ds : List SDoc) (ofs cs ce : Nat) (ks : List Node) :
      Sh ds (ofs + 1) ks →
      Sh (SDoc.inlineScope tag l :: ds) ofs
        (Node.mk tag [l] [] ofs ofs cs ce [] :: ks)

/-! The node tree after `process_nodes` on a link-free closed-scope
tree: every node keeps its lines; `modified_lines` is the lines, except
that a non-ignored one-line node gets the empty list (the rewriter's
fresh-footer splice removes its single line). -/

mutual
def procNode (hp : Bool) : Node → Node
  | .mk nm ls _ sl el cs ce kids =>
    .mk nm ls
      (if nm ∈ ignoredNodes then ls else if hp && ls.length == 1 then [] else ls)
      sl el cs ce (procKids kids)

def procKids : List Node → List Node
  | [] => []
  | c :: rest => procNode true c :: procKids rest
end

theorem lineMarksOk_elim (encl l : List Char) (h : lineMarksOk encl l = true) :
    (∀ m ∈ openMatches l, m.2 ∈ oneLinerTags) ∧
    (∀ m ∈ closeMatches l, m.1 ≠ encl) := by
  unfold lineMarksOk at h
  simp only [Bool.and_eq_true, List.all_eq_true, decide_eq_true_eq] at h
  exact h

theorem soleOpen_elim (tag l : List Char) (h : soleOpen tag l = true) :
    ∃ p, openMatches l = [(p, tag)] := by
  unfold soleOpen at h
  cases hm : openMatches l with
  | nil => rw [hm] at h; exact absurd h (by simp)
  | cons m rest =>
    cases rest with
    | nil =>
      obtain ⟨p, nm⟩ := m
      rw [hm] at h
      simp only [decide_eq_true_eq] at h
      subst h
      exact ⟨p, rfl⟩
    | cons m2 rest2 => rw [hm] at h; exact absurd h (by simp)

theorem soleClose_elim (tag l : List Char) (h : soleClose tag l = true) :
    ∃ e, closeMatches l = [(tag, e)] := by
  unfold soleClose at h
  cases hm : closeMatches l with
  | nil => rw [hm] at h; exact absurd h (by simp)
  | cons m rest =>
    cases rest with
    | nil =>
      obtain ⟨nm, e⟩ := m
      rw [hm] at h
      simp only [decide_eq_true_eq] at h
      subst h
      exact ⟨e, rfl⟩
    | cons m2 rest2 => rw [hm] at h; exact absurd h (by simp)

theorem contentOk_elim (ls : List (List Char)) (h : contentOk ls = true) :
    footnotes (joinLines ls) = [] ∧
    (∀ l ∈ ls, (footMatchAt l).isSome = false) ∧
    (∀ c ∈ joinLines ls, c ∉ controlChars) ∧
    splitKeepEnds (joinLines ls) = ls := by
  unfold contentOk at h
  simp only [Bool.and_eq_true, decide_eq_true_eq, List.all_eq_true] at h
  obtain ⟨⟨⟨h1, h2⟩, h3⟩, h4⟩ := h
  refine ⟨h1, fun l hl => ?_, fun c hc => ?_, h4⟩
  · simpa using h2 l hl
  · simpa using h3 c hc

theorem wfList_elim (encl : List Char) (d : SDoc) (ds : List SDoc)
    (h : wfList encl (d :: ds) = true) :
    wfD encl d = true ∧ wfList encl ds = true := by
  unfold wfList at h
  exact Bool.and_eq_true _ _ |>.mp h

theorem wfD_scope_elim (encl tag o : List Char) (body : List SDoc) (c : List Char)
    (h : wfD encl (.scope tag o body c) = true) :
    soleOpen tag o = true ∧ (∀ m ∈ closeMatches o, m.1 ≠ tag) ∧
    tag ∉ oneLinerTags ∧ openMatches c = [] ∧ soleClose tag c = true ∧
    (tag ∈ ignoredNodes ∨ contentOk (scopeLines o body c) = true) ∧
    wfList tag body = true := by
  unfold wfD at h
  simp only [Bool.and_eq_true, Bool.or_eq_true, List.all_eq_true,
    decide_eq_true_eq] at h
  obtain ⟨⟨⟨⟨⟨⟨h1, h2⟩, h3⟩, h4⟩, h5⟩, h6⟩, h7⟩ := h
  exact ⟨h1, fun m hm => by simpa using h2 m hm, h3, h4, h5, h6, h7⟩

theorem wfInl_elim (tag l : List Char) (h : wfInl tag l = true) :
    soleOpen tag l = true ∧ soleClose tag l = true ∧ tag ∉ oneLinerTags ∧
    tag ∉ ignoredNodes ∧ contentOk [l] = true := by
  unfold wfInl at h
  simp only [Bool.and_eq_true, decide_eq_true_eq] at h
  obtain ⟨⟨⟨⟨h1, h2⟩, h3⟩, h4⟩, h5⟩ := h
  exact ⟨h1, h2, h3, h4, h5⟩

theorem collapsedD_ne_nil (d : SDoc) : collapsedD d ≠ [] := by
  cases d <;> simp [collapsedD]

theorem collapsedList_ne_nil (ds : List SDoc) (h : ds ≠ []) :
    collapsedList ds ≠ [] := by
  cases ds with
  | nil => exact absurd rfl h
  | cons d rest =>
    simp only [collapsedList]
    exact fun he => collapsedD_ne_nil d (List.append_eq_nil.mp he).1

/-! ## Parser steps on closed-scope lines -/

theorem closeStep_ne (st : PState) (m : List Char × Nat) (line : List Char)
    (h : m.1 ≠ st.cur.name) :
    closeStep st m line = { st with cur := { st.cur with colEnd := m.2 } } := by
  unfold closeStep
  rw [if_neg h]

theorem closeFold_ne (line : List Char) (ms : List (List Char × Nat)) :
    ∀ (st : PState), (∀ m ∈ ms, m.1 ≠ st.cur.name) →
    ∃ ce, ms.foldl (fun s m => closeStep s m line) st =
      { st with cur := { st.cur with colEnd := ce } } := by
  induction ms with
  | nil => intro st _; exact ⟨st.cur.colEnd, rfl⟩
  | cons m rest ih =>
    intro st h
    rw [List.foldl_cons, closeStep_ne st m line (h m (List.mem_cons_self _ _))]
    exact ih _ (fun q hq => h q (List.mem_cons_of_mem _ hq))

theorem openFold_ones (ms : List (Nat × List Char)) :
    ∀ (st : PState), (∀ m ∈ ms, m.2 ∈ oneLinerTags) →
    ∃ cs, ms.foldl openFold (st, none) =
      ({ st with cur := { st.cur with colStart := cs } }, none) := by
  induction ms with
  | nil => intro st _; exact ⟨st.cur.colStart, rfl⟩
  | cons m rest ih =>
    intro st h
    have hm : m.2 ∈ oneLinerTags := h m (List.mem_cons_self _ _)
    have hstep : openFold (st, none) m =
        ({ st with cur := { st.cur with colStart := m.1 } }, none) := by
      unfold openFold
      dsimp only
      rw [if_pos hm]
    rw [List.foldl_cons, hstep]
    exact ih _ (fun q hq => h q (List.mem_cons_of_mem _ hq))

theorem openFold_new (st : PState) (pend : Option (List Char)) (p : Nat)
    (tag : List Char) (hone : tag ∉ oneLinerTags) (hpend : pend = none) :
    openFold (st, pend) (p, tag) =
      ({ st with cur := { st.cur with colStart := p } }, some tag) := by
  subst hpend
  unfold openFold
  dsimp only
  rw [if_neg hone]

/-! Splitting one `lineStep` into its phases, for lines that do not
descend (`lineStep_decomp`) and for lines that do (`lineStep_decomp2`). -/

theorem lineStep_decomp (st : PState) (l : List Char) (a b : PState)
    (hop : openPhase (pushCurLine st l) l = (a, none))
    (hcp : closePhase a l = b) :
    lineStep st l = bumpNln b := by
  unfold lineStep
  rw [hop, show descendPhase (a, none) l = a from rfl, hcp]

theorem lineStep_decomp2 (st : PState) (l : List Char) (a : PState)
    (nm : List Char) (b : PState)
    (hop : openPhase (pushCurLine st l) l = (a, some nm))
    (hcp : closePhase (descend a nm l) l = b) :
    lineStep st l = bumpNln b := by
  unfold lineStep
  rw [hop, show descendPhase (a, some nm) l = descend a nm l from rfl, hcp]

/-- A line whose open markers are all one-liner tags and whose close
markers do not name the current node only pushes the line and updates
the column fields. -/
theorem lineStep_marks (st : PState) (l : List Char)
    (h1 : ∀ m ∈ openMatches l, m.2 ∈ oneLinerTags)
    (h2 : ∀ m ∈ closeMatches l, m.1 ≠ st.cur.name) :
    ∃ cs ce, lineStep st l =
      { stack := st.stack,
        cur := { name := st.cur.name, lines := st.cur.lines ++ [l],
                 children := st.cur.children, startLine := st.cur.startLine,
                 colStart := cs, colEnd := ce },
        nln := st.nln + 1 } := by
  obtain ⟨cs, hcs⟩ := openFold_ones (openMatches l) (pushCurLine st l) h1
  obtain ⟨ce, hce⟩ := closeFold_ne l (closeMatches l)
    { pushCurLine st l with cur := { (pushCurLine st l).cur with colStart := cs } } h2
  refine ⟨cs, ce, ?_⟩
  rw [lineStep_decomp st l _ _ hcs hce]
  rfl

theorem closeStep_ascend (st : PState) (e : Nat) (line : List Char)
    (parent : Frame) (rest : List Frame)
    (hstack : st.stack = parent :: rest)
    (hnln : st.nln ≠ 0) :
    closeStep st (st.cur.name, e) line =
      { stack := rest,
        cur := { parent with
                 children := parent.children ++
                   [Node.mk st.cur.name st.cur.lines [] st.cur.startLine
                     (st.cur.startLine + 1) st.cur.colStart e st.cur.children],
                 lines := parent.lines ++ [line] },
        nln := st.cur.startLine + 1 } := by
  unfold closeStep
  dsimp only
  rw [if_pos rfl, hstack]
  dsimp only
  simp only [if_neg hnln]

theorem closeStep_same (st : PState) (e : Nat) (line : List Char)
    (parent : Frame) (rest : List Frame)
    (hstack : st.stack = parent :: rest)
    (hnln : st.nln = 0) :
    closeStep st (st.cur.name, e) line =
      { stack := rest,
        cur := { parent with
                 children := parent.children ++
                   [Node.mk st.cur.name st.cur.lines [] st.cur.startLine
                     st.cur.startLine st.cur.colStart e st.cur.children] },
        nln := st.cur.startLine } := by
  unfold closeStep
  dsimp only
  rw [if_pos rfl, hstack]
  dsimp only
  simp only [if_pos hnln]

/-- The open line of a scope: push, record the column on the enclosing
node, descend into the new node; mismatched close markers only stamp the
new node's `colEnd`. -/
theorem lineStep_scopeOpen (st : PState) (o tag : List Char) (p : Nat)
    (hop : openMatches o = [(p, tag)])
    (hone : tag ∉ oneLinerTags)
    (hcl : ∀ m ∈ closeMatches o, m.1 ≠ tag) :
    ∃ ce, lineStep st o =
      { stack := { st.cur with lines := st.cur.lines ++ [o], colStart := p } :: st.stack,
        cur := { name := tag, lines := [o], children := [], startLine := st.nln,
                 colStart := 0, colEnd := ce },
        nln := 1 } := by
  have hopen : openPhase (pushCurLine st o) o =
      ({ pushCurLine st o with cur := { (pushCurLine st o).cur with colStart := p } },
       some tag) := by
    unfold openPhase
    rw [hop, List.foldl_cons, List.foldl_nil,
      openFold_new (pushCurLine st o) none p tag hone rfl]
  obtain ⟨ce, hce⟩ := closeFold_ne o (closeMatches o)
    (descend { pushCurLine st o with
               cur := { (pushCurLine st o).cur with colStart := p } } tag o) hcl
  refine ⟨ce, ?_⟩
  rw [lineStep_decomp2 st o _ tag _ hopen hce]
  rfl

/-- The close line of a multi-line scope: push onto the scope node,
finalize it with `end_line = start_line + 1`, attach it to the parent,
push the line onto the parent. -/
theorem lineStep_scopeClose (st : PState) (c : List Char) (e : Nat)
    (parent : Frame) (rest : List Frame)
    (hstack : st.stack = parent :: rest)
    (hnln : st.nln ≠ 0)
    (hop : openMatches c = [])
    (hcl : closeMatches c = [(st.cur.name, e)]) :
    lineStep st c =
      { stack := rest,
        cur := { parent with
                 children := parent.children ++
                   [Node.mk st.cur.name (st.cur.lines ++ [c]) [] st.cur.startLine
                     (st.cur.startLine + 1) st.cur.colStart e st.cur.children],
                 lines := parent.lines ++ [c] },
        nln := st.cur.startLine + 2 } := by
  have hopen : openPhase (pushCurLine st c) c = (pushCurLine st c, none) := by
    unfold openPhase
    rw [hop, List.foldl_nil]
  have hclose := closeStep_ascend (pushCurLine st c) e c parent rest hstack hnln
  have hcp : closePhase (pushCurLine st c) c =
      { stack := rest,
        cur := { parent with
                 children := parent.children ++
                   [Node.mk st.cur.name (st.cur.lines ++ [c]) [] st.cur.startLine
                     (st.cur.startLine + 1) st.cur.colStart e st.cur.children],
                 lines := parent.lines ++ [c] },
        nln := st.cur.startLine + 1 } := by
    unfold closePhase
    rw [hcl, List.foldl_cons, List.foldl_nil]
    exact hclose
  rw [lineStep_decomp st c _ _ hopen hcp]
  rfl

/-- A one-line scope: push the line onto the enclosing node, descend,
close on the same line; the finished childless node is attached and the
enclosing node's lines are not pushed again. -/
theorem lineStep_inl (st : PState) (l tag : List Char) (p e : Nat)
    (hop : openMatches l = [(p, tag)])
    (hone : tag ∉ oneLinerTags)
    (hcl : closeMatches l = [(tag, e)]) :
    lineStep st l =
      { stack := st.stack,
        cur := { name := st.cur.name, lines := st.cur.lines ++ [l],
                 children := st.cur.children ++
                   [Node.mk tag [l] [] st.nln st.nln 0 e []],
                 startLine := st.cur.startLine, colStart := p,
                 colEnd := st.cur.colEnd },
        nln := st.nln + 1 } := by
  have hopen : openPhase (pushCurLine st l) l =
      ({ pushCurLine st l with cur := { (pushCurLine st l).cur with colStart := p } },
       some tag) := by
    unfold openPhase
    rw [hop, List.foldl_cons, List.foldl_nil,
      openFold_new (pushCurLine st l) none p tag hone rfl]
  have hst : (descend { pushCurLine st l with
      cur := { (pushCurLine st l).cur with colStart := p } } tag l).stack =
      { name := st.cur.name, lines := st.cur.lines ++ [l],
        children := st.cur.children, startLine := st.cur.startLine,
        colStart := p, colEnd := st.cur.colEnd } :: st.stack := rfl
  have hnl : (descend { pushCurLine st l with
      cur := { (pushCurLine st l).cur with colStart := p } } tag l).nln = 0 := rfl
  have hclose := closeStep_same _ e l _ _ hst hnl
  have hcp : closePhase (descend { pushCurLine st l with
      cur := { (pushCurLine st l).cur with colStart := p } } tag l) l =
      { stack := st.stack,
        cur := { name := st.cur.name, lines := st.cur.lines ++ [l],
                 children := st.cur.children ++
                   [Node.mk tag [l] [] st.nln st.nln 0 e []],
                 startLine := st.cur.startLine, colStart := p,
                 colEnd := st.cur.colEnd },
        nln := st.nln } := by
    unfold closePhase
    rw [hcl, List.foldl_cons, List.foldl_nil]
    exact hclose
  rw [lineStep_decomp2 st l _ tag _ hopen hcp]
  rfl

/-! ## The parser on closed-scope documents -/

theorem sh_cons (d : SDoc) (ds : List SDoc) (ofs : Nat) (ks1 ks2 : List Node)
    (h1 : Sh [d] ofs ks1) (h2 : Sh ds (ofs + (collapsedD d).length) ks2) :
    Sh (d :: ds) ofs (ks1 ++ ks2) := by
  cases h1 with
  | line l _ _ _ hrest =>
    cases hrest
    exact Sh.line l ds ofs ks2 h2
  | scope tag o body c _ _ cs ce bks _ hbody hrest =>
    cases hrest
    exact Sh.scope tag o body c ds ofs cs ce bks ks2 hbody h2
  | inl tag l _ _ cs ce _ hrest =>
    cases hrest
    exact Sh.inl tag l ds ofs cs ce ks2 h2

mutual
theorem parseRunD : ∀ (d : SDoc) (encl : List Char) (st : PState),
    wfD encl d = true → st.cur.name = encl → st.nln = st.cur.lines.length →
    ∃ cs ce ks,
      (renderD d).foldl lineStep st =
        { stack := st.stack,
          cur := { name := st.cur.name, lines := st.cur.lines ++ collapsedD d,
                   children := st.cur.children ++ ks,
                   startLine := st.cur.startLine, colStart := cs, colEnd := ce },
          nln := st.cur.lines.length + (collapsedD d).length } ∧
      Sh [d] st.cur.lines.length ks
  | .line l => by
    intro encl st hwf hname hnln
    simp only [wfD] at hwf
    obtain ⟨h1, h2⟩ := lineMarksOk_elim encl l hwf
    obtain ⟨cs, ce, heff⟩ := lineStep_marks st l h1 (by rw [hname]; exact h2)
    refine ⟨cs, ce, [], ?_, Sh.line l [] _ [] (Sh.nil _)⟩
    simp only [renderD]
    rw [List.foldl_cons, List.foldl_nil, heff, hnln]
    simp only [collapsedD, List.append_nil, List.length_cons, List.length_nil]
  | .scope tag o body c => by
    intro encl st hwf hname hnln
    obtain ⟨hso, hco, hone, hopc, hscc, hcont, hwb⟩ :=
      wfD_scope_elim encl tag o body c hwf
    obtain ⟨p, hop⟩ := soleOpen_elim tag o hso
    obtain ⟨e, hcl⟩ := soleClose_elim tag c hscc
    obtain ⟨ce0, hstep1⟩ := lineStep_scopeOpen st o tag p hop hone hco
    obtain ⟨cs1, ce1, bks, heffB, hshB⟩ := parseRunList body tag
      { stack := { st.cur with lines := st.cur.lines ++ [o], colStart := p } :: st.stack,
        cur := { name := tag, lines := [o], children := [], startLine := st.nln,
                 colStart := 0, colEnd := ce0 },
        nln := 1 }
      hwb rfl rfl
    have heffB' : List.foldl lineStep
        { stack := { st.cur with lines := st.cur.lines ++ [o], colStart := p } :: st.stack,
          cur := { name := tag, lines := [o], children := [], startLine := st.nln,
                   colStart := 0, colEnd := ce0 },
          nln := 1 } (renderList body) =
        { stack := { st.cur with lines := st.cur.lines ++ [o], colStart := p } :: st.stack,
          cur := { name := tag, lines := o :: collapsedList body, children := bks,
                   startLine := st.nln, colStart := cs1, colEnd := ce1 },
          nln := 1 + (collapsedList body).length } := heffB
    have hshB' : Sh body 1 bks := hshB
    have hstep2 := lineStep_scopeClose
      { stack := { st.cur with lines := st.cur.lines ++ [o], colStart := p } :: st.stack,
        cur := { name := tag, lines := o :: collapsedList body, children := bks,
                 startLine := st.nln, colStart := cs1, colEnd := ce1 },
        nln := 1 + (collapsedList body).length }
      c e
      { st.cur with lines := st.cur.lines ++ [o], colStart := p }
      st.stack rfl (by dsimp only; omega) hopc hcl
    have hstep2' : lineStep
        { stack := { st.cur with lines := st.cur.lines ++ [o], colStart := p } :: st.stack,
          cur := { name := tag, lines := o :: collapsedList body, children := bks,
                   startLine := st.nln, colStart := cs1, colEnd := ce1 },
          nln := 1 + (collapsedList body).length } c =
        { stack := st.stack,
          cur := { name := st.cur.name, lines := (st.cur.lines ++ [o]) ++ [c],
                   children := st.cur.children ++
                     [Node.mk tag (scopeLines o body c) [] st.nln (st.nln + 1) cs1 e bks],
                   startLine := st.cur.startLine, colStart := p,
                   colEnd := st.cur.colEnd },
          nln := st.nln + 2 } := hstep2
    refine ⟨p, st.cur.colEnd,
      [Node.mk tag (scopeLines o body c) [] st.cur.lines.length
        (st.cur.lines.length + 1) cs1 e bks], ?_,
      Sh.scope tag o body c [] st.cur.lines.length cs1 e bks [] hshB' (Sh.nil _)⟩
    simp only [renderD]
    rw [List.foldl_cons, hstep1, List.foldl_append, heffB', List.foldl_cons,
      List.foldl_nil, hstep2', hnln]
    simp only [collapsedD, List.append_assoc, List.singleton_append]
    rfl
  | .inlineScope tag l => by
    intro encl st hwf hname hnln
    simp only [wfD] at hwf
    obtain ⟨hso, hsc, hone, hig, hcont⟩ := wfInl_elim tag l hwf
    obtain ⟨p, hop⟩ := soleOpen_elim tag l hso
    obtain ⟨e, hcl⟩ := soleClose_elim tag l hsc
    refine ⟨p, st.cur.colEnd,
      [Node.mk tag [l] [] st.cur.lines.length st.cur.lines.length 0 e []], ?_,
      Sh.inl tag l [] _ 0 e [] (Sh.nil _)⟩
    simp only [renderD]
    rw [List.foldl_cons, List.foldl_nil, lineStep_inl st l tag p e hop hone hcl, hnln]
    simp only [collapsedD, List.length_cons, List.length_nil]

theorem parseRunList : ∀ (ds : List SDoc) (encl : List Char) (st : PState),
    wfList encl ds = true → st.cur.name = encl → st.nln = st.cur.lines.length →
    ∃ cs ce ks,
      (renderList ds).foldl lineStep st =
        { stack := st.stack,
          cur := { name := st.cur.name, lines := st.cur.lines ++ collapsedList ds,
                   children := st.cur.children ++ ks,
                   startLine := st.cur.startLine, colStart := cs, colEnd := ce },
          nln := st.cur.lines.length + (collapsedList ds).length } ∧
      Sh ds st.cur.lines.length ks
  | [] => by
    intro encl st _ _ hnln
    refine ⟨st.cur.colStart, st.cur.colEnd, [], ?_, Sh.nil _⟩
    simp only [renderList, List.foldl_nil, collapsedList, List.append_nil,
      List.length_nil, Nat.add_zero]
    rw [← hnln]
  | d :: ds => by
    intro encl st hwf hname hnln
    obtain ⟨hwd, hwl⟩ := wfList_elim encl d ds hwf
    obtain ⟨cs1, ce1, ks1, heff1, hsh1⟩ := parseRunD d encl st hwd hname hnln
    obtain ⟨cs2, ce2, ks2, heff2, hsh2⟩ := parseRunList ds encl
      { stack := st.stack,
        cur := { name := st.cur.name, lines := st.cur.lines ++ collapsedD d,
                 children := st.cur.children ++ ks1,
                 startLine := st.cur.startLine, colStart := cs1, colEnd := ce1 },
        nln := st.cur.lines.length + (collapsedD d).length }
      hwl hname (by simp)
    dsimp only at hsh2
    rw [List.length_append] at hsh2
    refine ⟨cs2, ce2, ks1 ++ ks2, ?_, sh_cons d ds _ ks1 ks2 hsh1 hsh2⟩
    simp only [renderList]
    rw [List.foldl_append, heff1, heff2]
    dsimp only
    simp only [collapsedList, List.append_assoc, List.length_append, Nat.add_assoc]
end

/-! ## The rewriter on closed-scope trees -/

theorem rewriteLines_ignored (hp : Bool) (nm : List Char) (ls : List (List Char))
    (h : nm ∈ ignoredNodes) : rewriteLines hp nm ls = .ok ls := by
  unfold rewriteLines
  rw [if_pos h]

/-- On a link-free, control-free child node the rewrite only splices an
empty definition block at `len - 1`: a multi-line node is unchanged, a
one-line node loses its single line (the `[0:1]` splice). -/
theorem rewriteLines_child (nm : List Char) (ls : List (List Char))
    (hnm : nm ∉ ignoredNodes)
    (hne : ls ≠ [])
    (hfoot : footnotes (joinLines ls) = [])
    (hline : ∀ l ∈ ls, (footMatchAt l).isSome = false)
    (hctl : ∀ c ∈ joinLines ls, c ∉ controlChars)
    (hsplit : splitKeepEnds (joinLines ls) = ls) :
    rewriteLines true nm ls = .ok (if ls.length = 1 then [] else ls) := by
  have hfr : footerRange ls = (0, 0) := footerRange_none ls hline
  have hstrip : stripControls (joinLines ls) = joinLines ls := stripControls_id _ hctl
  unfold rewriteLines
  rw [if_neg hnm]
  rw [hfoot]
  simp only [collectRefs, sortByKey, flipRefs, List.foldl_nil, hfr, collectInline,
    collectInline_nil_flipped, renumber, List.map_nil, List.enum_nil, groupRuns,
    List.map, footerLines, hstrip, hsplit]
  by_cases h1 : ls.length = 1
  · obtain ⟨a, rfl⟩ := List.length_eq_one.mp h1
    simp [pySliceAssign]
  · have hlen0 : ¬(ls.length = 0) := fun h => hne (List.length_eq_zero.mp h)
    have hsub : ¬(ls.length - 1 = 0) := by omega
    simp only [if_pos rfl, if_true, if_neg hsub, if_neg h1, Nat.max_self,
      pySliceAssign, List.append_nil, List.take_append_drop]

/-- Processing the children of a closed-scope parse tree succeeds and
yields exactly the `procNode` tree. -/
theorem procShape {ds : List SDoc} {ofs : Nat} {ks : List Node} (hsh : Sh ds ofs ks) :
    ∀ encl, wfList encl ds = true → processKids ks = .ok (procKids ks) := by
  induction hsh with
  | nil ofs => intro encl _; rfl
  | line l ds ofs ks hrest ih =>
    intro encl hwf
    exact ih encl (wfList_elim encl _ ds hwf).2
  | scope tag o body c ds ofs cs ce bks ks hbody hrest ihbody ihrest =>
    intro encl hwf
    obtain ⟨hwd, hwl⟩ := wfList_elim encl _ ds hwf
    obtain ⟨hso, hco, hone, hopc, hscc, hcont, hwb⟩ :=
      wfD_scope_elim encl tag o body c hwd
    have hlen1 : ¬((scopeLines o body c).length = 1) := by
      simp [scopeLines]
    have hml : rewriteLines true tag (scopeLines o body c) =
        .ok (scopeLines o body c) := by
      by_cases hig : tag ∈ ignoredNodes
      · exact rewriteLines_ignored true tag _ hig
      · rcases hcont with hig' | hok
        · exact absurd hig' hig
        · obtain ⟨hf, hl, hc, hs⟩ := contentOk_elim _ hok
          rw [rewriteLines_child tag _ hig (by simp [scopeLines]) hf hl hc hs,
            if_neg hlen1]
    have hbeq : ((scopeLines o body c).length == 1) = false :=
      beq_eq_false_iff_ne.mpr hlen1
    have hkb := ihbody tag hwb
    have hkr := ihrest encl hwl
    simp only [processKids, processNodes, hml, hkb, hkr, procKids, procNode,
      hbeq, Bool.true_and, Bool.false_eq_true, if_false, ite_self]
  | inl tag l ds ofs cs ce ks hrest ihrest =>
    intro encl hwf
    obtain ⟨hwd, hwl⟩ := wfList_elim encl _ ds hwf
    simp only [wfD] at hwd
    obtain ⟨hso, hsc, hone, hig, hcont⟩ := wfInl_elim tag l hwd
    obtain ⟨hf, hl, hc, hs⟩ := contentOk_elim _ hcont
    have hml : rewriteLines true tag [l] = .ok [] := by
      rw [rewriteLines_child tag [l] hig (by simp) hf hl hc hs]
      simp
    have hkr := ihrest encl hwl
    simp only [processKids, processNodes, hml, hkr, procKids, procNode,
      if_neg hig, List.length_cons, List.length_nil, Bool.true_and]
    simp

/-! ## Reassembly of processed closed-scope trees -/

theorem setSame {α : Type} : ∀ (l : List α) (n : Nat) (a : α),
    l.get? n = some a → l.set n a = l
  | [], _, _, h => by simp at h
  | b :: bs, 0, a, h => by
    simp only [List.get?] at h
    injection h with h
    subst h
    rfl
  | b :: bs, n + 1, a, h => by
    simp only [List.get?] at h
    simp only [List.set]
    rw [setSame bs n a h]

/-- Splicing a multi-line child occupying the two collapsed lines after
`pre` replaces exactly those two lines by the child's output. -/
theorem spliceChild_multi (pre mid X cOut : List (List Char)) (cs ce : Nat)
    (hmid : mid.length = 2) :
    spliceChild ((pre ++ mid) ++ X) pre.length (pre.length + 1) cs ce cOut =
      .ok (pre ++ (cOut ++ X)) := by
  unfold spliceChild
  rw [if_neg (by omega : ¬(pre.length = pre.length + 1))]
  unfold pySliceAssign
  rw [Nat.max_eq_right (by omega : pre.length ≤ pre.length + 1 + 1)]
  rw [show pre.length + 1 + 1 = (pre ++ mid).length from by
    rw [List.length_append, hmid]]
  rw [List.drop_left,
    List.take_append_of_le_length (by simp : pre.length ≤ (pre ++ mid).length),
    List.take_append_of_le_length (Nat.le_refl pre.length), List.take_length]
  simp [List.append_assoc]

/-- Splicing a one-line child with empty output stores the parent's line
back unchanged. -/
theorem spliceChild_inline (pre X : List (List Char)) (l : List Char) (cs ce : Nat) :
    spliceChild ((pre ++ [l]) ++ X) pre.length pre.length cs ce [] =
      .ok ((pre ++ [l]) ++ X) := by
  unfold spliceChild
  rw [if_pos rfl]
  have hget : ((pre ++ [l]) ++ X).get? pre.length = some l := by
    rw [List.append_assoc, List.get?_append_right (Nat.le_refl _), Nat.sub_self]
    rfl
  rw [hget]
  simp only [List.isEmpty_nil, if_true, setSame _ _ _ hget]

/-- Reassembling the processed children of a closed-scope tree into the
enclosing node's collapsed lines expands every scope back to its full
rendering: the reverse-order splices land exactly on the recorded line
ranges. -/
theorem asmShape {ds : List SDoc} {ofs : Nat} {ks : List Node} (hsh : Sh ds ofs ks) :
    ∀ encl, wfList encl ds = true →
    ∀ (pre post : List (List Char)), pre.length = ofs →
    assembleKids (procKids ks) (pre ++ (collapsedList ds ++ post)) =
      .ok (pre ++ (renderList ds ++ post)) := by
  induction hsh with
  | nil ofs =>
    intro encl _ pre post _
    simp [procKids, assembleKids, collapsedList, renderList]
  | line l ds ofs ks hrest ih =>
    intro encl hwf pre post hpre
    have h := ih encl (wfList_elim encl _ ds hwf).2 (pre ++ [l]) post (by simp [hpre])
    simpa [collapsedList, collapsedD, renderList, renderD, List.append_assoc] using h
  | scope tag o body c ds ofs cs ce bks ks hbody hrest ihbody ihrest =>
    intro encl hwf pre post hpre
    subst hpre
    obtain ⟨hwd, hwl⟩ := wfList_elim encl _ ds hwf
    obtain ⟨hso, hco, hone, hopc, hscc, hcont, hwb⟩ :=
      wfD_scope_elim encl tag o body c hwd
    have hbeq : ((scopeLines o body c).length == 1) = false :=
      beq_eq_false_iff_ne.mpr (by simp [scopeLines])
    have houtr := ihrest encl hwl (pre ++ [o, c]) post (by simp)
    have hnode : assembleKids (procKids bks) (scopeLines o body c) =
        .ok ([o] ++ (renderList body ++ [c])) := ihbody tag hwb [o] [c] rfl
    have hbuf : pre ++ (collapsedList (SDoc.scope tag o body c :: ds) ++ post) =
        (pre ++ [o, c]) ++ (collapsedList ds ++ post) := by
      simp [collapsedList, collapsedD, List.append_assoc]
    rw [hbuf]
    simp only [procKids, assembleKids, assembleNode, procNode, Node.startLine,
      Node.endLine, Node.colStart, Node.colEnd, hbeq, Bool.true_and,
      Bool.false_eq_true, if_false, ite_self, houtr, hnode]
    rw [spliceChild_multi pre [o, c] (renderList ds ++ post)
      ([o] ++ (renderList body ++ [c])) cs ce rfl]
    simp [renderList, renderD, List.append_assoc]
  | inl tag l ds ofs cs ce ks hrest ihrest =>
    intro encl hwf pre post hpre
    subst hpre
    obtain ⟨hwd, hwl⟩ := wfList_elim encl _ ds hwf
    simp only [wfD] at hwd
    obtain ⟨hso, hsc, hone, hig, hcont⟩ := wfInl_elim tag l hwd
    have houtr := ihrest encl hwl (pre ++ [l]) post (by simp)
    have hbuf : pre ++ (collapsedList (SDoc.inlineScope tag l :: ds) ++ post) =
        (pre ++ [l]) ++ (collapsedList ds ++ post) := by
      simp [collapsedList, collapsedD, List.append_assoc]
    rw [hbuf]
    simp only [procKids, assembleKids, assembleNode, procNode, Node.startLine,
      Node.endLine, Node.colStart, Node.colEnd, if_neg hig, List.length_cons,
      List.length_nil, Nat.zero_add, beq_self_eq_true, Bool.true_and, if_true,
      houtr]
    rw [spliceChild_inline pre (renderList ds ++ post) l cs ce]
    simp [renderList, renderD, List.append_assoc]

/-! ## Claim theorems -/

/-- Claim C1, counterexample.  On the scope text
`See [here][1] and [there](http://y.com)\n[1]: http://x.com\n` the claim
predicts that both links are rewritten to reference-index syntax with
`http://y.com` assigned index 2.  In fact the pipeline returns the input
unchanged: the second link is still in inline syntax (`](http://y.com)`
occurs in the output) and no index 2 is ever assigned (`[2]` does not
occur). -/
theorem c1_counterexample :
    formatLinkFile "See [here][1] and [there](http://y.com)\n[1]: http://x.com\n" =
      .ok "See [here][1] and [there](http://y.com)\n[1]: http://x.com\n" ∧
    containsSeg ("](http://y.com)".data)
      ("See [here][1] and [there](http://y.com)\n[1]: http://x.com\n".data) = true ∧
    containsSeg ("[2]".data)
      ("See [here][1] and [there](http://y.com)\n[1]: http://x.com\n".data) = false :=
  ⟨by decide, by decide, by decide⟩

/-- Claim C1, amended.  After inlining, the rewriter collects only those
inline-link URLs that already had a footnote index in the scope (looked
up in the inverted reference mapping): every pair collected by
`collectInline` maps a URL to its pre-existing index.  Inline links with
new URLs are left untouched, so the claim's example input is returned
unchanged, with `http://x.com` still at index 1 and `http://y.com` still
inline. -/
theorem c1_theorem :
    (∀ (flipped : List (List Char × Nat)) (urls : List (List Char)),
       ∀ p ∈ collectInline flipped urls, lookupUrl flipped p.2 = some p.1) ∧
    formatLinkFile "See [here][1] and [there](http://y.com)\n[1]: http://x.com\n" =
      .ok "See [here][1] and [there](http://y.com)\n[1]: http://x.com\n" :=
  ⟨fun flipped urls => collectInline_aux flipped urls [] (by intro p hp; cases hp),
   by decide⟩

/-- Witness for the hypotheses of `c1_theorem`: a concrete URL with
pre-assigned index 1 is collected and maps back to index 1. -/
theorem c1_witness :
    lookupUrl [("http://x".data, 1)] ("http://x".data) = some 1 :=
  c1_theorem.1 [("http://x".data, 1)] ["http://x".data] (1, "http://x".data) (by decide)

/-- Claim C2.  `assembleKids` visits children in reverse insertion order
(the recursion splices the tail — the later siblings — before the head),
and for a root with any number of non-overlapping multi-line children at
sorted distinct line ranges the assembled output decomposes as
`segsFrom`: the buffer segment before each child's recorded range, then
that child's `modified_lines` verbatim, then the buffer tail after the
last range.  Since the theorem holds for every payload assignment over
the same ranges, swapping any one child's `modified_lines` for a
replacement of a different length changes only that child's own segment:
every other sibling's recorded `start_line`/`end_line`, computed against
the original buffer, is still valid at the moment that sibling is
spliced. -/
theorem c2_theorem (buf : List (List Char)) (rs : List (Nat × Nat × List (List Char)))
    (h : chainOk 0 buf.length rs = true) :
    assembleNode (mkRoot buf (mkLeaves rs)) = .ok (segsFrom buf 0 rs) := by
  have hd := assembleKids_decomp rs buf 0 h
  simpa [mkRoot, assembleNode] using hd

/-- Witness for `c2_theorem`: a 7-line buffer with two children of
different payload lengths at ranges `[1,2]` and `[4,5]`. -/
theorem c2_witness :
    chainOk 0 7 [(1, 2, [("x\n".data)]), (4, 5, [("y\n".data), ("z\n".data), ("w\n".data)])] = true ∧
    assembleNode (mkRoot
        [("a\n".data), ("b\n".data), ("c\n".data), ("d\n".data), ("e\n".data), ("f\n".data), ("g\n".data)]
        (mkLeaves [(1, 2, [("x\n".data)]), (4, 5, [("y\n".data), ("z\n".data), ("w\n".data)])])) =
      .ok (segsFrom
        [("a\n".data), ("b\n".data), ("c\n".data), ("d\n".data), ("e\n".data), ("f\n".data), ("g\n".data)]
        0 [(1, 2, [("x\n".data)]), (4, 5, [("y\n".data), ("z\n".data), ("w\n".data)])]) :=
  ⟨by decide,
   c2_theorem
     [("a\n".data), ("b\n".data), ("c\n".data), ("d\n".data), ("e\n".data), ("f\n".data), ("g\n".data)]
     [(1, 2, [("x\n".data)]), (4, 5, [("y\n".data), ("z\n".data), ("w\n".data)])]
     (by decide)⟩

/-- Claim C3 (code bug).  For an inline child (`start_line == end_line`)
with non-empty assembled output, line 266 of the source evaluates
`line[:child.start] + child_output + line[child.end:]` where
`child_output` is a Python `list`; the `str + list` concatenation raises
`TypeError` instead of splicing the concatenated child output between the
column bounds.  Both a minimal synthetic tree and a full pipeline run on
a document with an inline scope containing a resolvable link hit the
error. -/
theorem c3_theorem :
    assembleNode (Node.mk ("root".data) [] ["AB\n".data] 0 0 0 0
        [Node.mk ("tab".data) [] ["X".data] 0 0 1 1 []]) = .error .typeError ∧
    formatLinkChars ("[1]: http://x {{< tab >}}see [a](http://x){{< /tab >}}\n".data) =
      .error .typeError :=
  ⟨by decide, by decide⟩

/-- Claim C4.  A scope whose content contains two footnote definitions
sharing the same integer index is fatal: the per-scope rewrite stops with
the duplicate-index error carrying the index and both conflicting links
(the logged report), and for any parsed document whose tree contains such
a scope the whole pipeline returns an error, so no output text is
produced and the file is not rewritten, not even partially. -/
theorem c4_theorem :
    (∀ (hp : Bool) (nm : List Char) (ls : List (List Char)),
       nm ∉ ignoredNodes → dupFootnote (joinLines ls) = true →
       ∃ i a b, rewriteLines hp nm ls = .error (.dupRef i a b)) ∧
    (∀ (doc : List Char) (root : Node),
       parseDoc doc = .ok root → nodeHasDup root = true →
       ∃ e, formatLinkChars doc = .error e) :=
  ⟨rewriteLines_dup,
   fun doc root hparse hdup => by
     obtain ⟨e, hp⟩ := processNodes_dup false root hdup
     exact ⟨e, by simp only [formatLinkChars, hparse, hp]⟩⟩

/-- Witness for `c4_theorem` on the scope `[1]: http://a\n[1]: http://b\n`
of the spec's duplicate-detection example. -/
theorem c4_witness :
    (∃ i a b, rewriteLines false ("root".data)
        [("[1]: http://a\n".data), ("[1]: http://b\n".data)] = .error (.dupRef i a b)) ∧
    (∃ e, formatLinkChars ("[1]: http://a\n[1]: http://b\n".data) = .error e) :=
  ⟨c4_theorem.1 false ("root".data)
     [("[1]: http://a\n".data), ("[1]: http://b\n".data)] (by decide) (by decide),
   c4_theorem.2 ("[1]: http://a\n[1]: http://b\n".data)
     (Node.mk ("root".data) [("[1]: http://a\n".data), ("[1]: http://b\n".data)] [] 0 0 0 0 [])
     rfl (by decide)⟩

/-- Claim C5.  `parse_file` fails with its parse error exactly when the
root captures zero lines, i.e. when the document has no lines at all: the
first line always lands on the root, and no parser step ever removes a
line from the bottom-most node.  Unclosed regions are tolerated: parsing
`A\n{{< tab x >}}\nB\n` (the `tab` scope is never closed) completes
normally with the unclosed node left attached to its parent and its
`end_line` never finalized (still the constructor default 0). -/
theorem c5_theorem :
    (∀ doc : List Char, (∃ e, parseDoc doc = .error e) ↔ readLines doc = []) ∧
    parseDoc ("A\n{{< tab x >}}\nB\n".data) =
      .ok (.mk ("root".data) [("A\n".data), ("{{< tab x >}}\n".data)] [] 0 0 0 0
        [.mk ("tab".data) [("{{< tab x >}}\n".data), ("B\n".data)] [] 1 0 0 0 []]) := by
  constructor
  · intro doc
    constructor
    · rintro ⟨e, he⟩
      by_contra hne
      have hroot : (collapse (runParse (readLines doc)).stack
          (runParse (readLines doc)).cur).lines ≠ [] := by
        rw [collapse_lines]
        exact runParse_root (readLines doc) hne
      simp only [parseDoc, Node.lines] at he
      rw [if_neg (by simpa [List.isEmpty_iff] using hroot)] at he
      exact Except.noConfusion he
    · intro hnil
      refine ⟨.parseError, ?_⟩
      simp only [parseDoc, hnil]
      rfl
  · rfl

/-- Witness for `c5_theorem` at the empty document. -/
theorem c5_witness : ∃ e, parseDoc [] = .error e :=
  (c5_theorem.1 []).mpr rfl

/-- Claim C6, counterexample.  The scope
`see [a][2]\n[1]: http://x\n` contains the reference-syntax link `[a][2]`
whose index 2 has no definition collected in the scope (only index 1 is
collected), yet no warning is reported: the warning condition at line 166
fires only when the scope collected no definitions at all. -/
theorem c6_counterexample :
    containsSeg ("[a][2]".data)
      (joinLines [("see [a][2]\n".data), ("[1]: http://x\n".data)]) = true ∧
    refSearch (joinLines [("see [a][2]\n".data), ("[1]: http://x\n".data)]) = true ∧
    collectRefs []
      (footnotes (joinLines [("see [a][2]\n".data), ("[1]: http://x\n".data)])) =
      .ok [(1, ("http://x".data))] ∧
    orphanWarning ("root".data) [("see [a][2]\n".data), ("[1]: http://x\n".data)] = false :=
  ⟨by decide, by decide, by decide, by decide⟩

/-- Claim C6, amended.  For a non-ignored scope whose reference extraction
succeeds, the orphan warning is reported precisely when the scope
collected no footnote definitions at all but its content contains a
reference-syntax link; a scope with at least one collected definition
never warns, even with unresolved reference indices; and the warning is
non-fatal: the rewrite still succeeds and the scope is still processed. -/
theorem c6_theorem (hp : Bool) (nm : List Char) (ls : List (List Char))
    (refs : List (Nat × List Char)) (hnm : nm ∉ ignoredNodes)
    (hok : collectRefs [] (footnotes (joinLines ls)) = .ok refs) :
    (orphanWarning nm ls = (refs.isEmpty && refSearch (joinLines ls))) ∧
    (refs ≠ [] → orphanWarning nm ls = false) ∧
    (∃ ml, rewriteLines hp nm ls = .ok ml) := by
  have hw : orphanWarning nm ls = (refs.isEmpty && refSearch (joinLines ls)) := by
    simp only [orphanWarning, if_neg hnm, hok, sortByKey_isEmpty]
  refine ⟨hw, ?_, ?_⟩
  · intro hne
    rw [hw]
    cases refs with
    | nil => exact absurd rfl hne
    | cons p ps => rfl
  · cases hrw : rewriteLines hp nm ls with
    | ok ml => exact ⟨ml, rfl⟩
    | error e =>
      exfalso
      simp only [rewriteLines, if_neg hnm, hok] at hrw
      exact Except.noConfusion hrw

/-- Witness for `c6_theorem`: the no-definitions scope `see [a][2]\n`
warns and is still rewritten successfully. -/
theorem c6_witness :
    orphanWarning ("root".data) [("see [a][2]\n".data)] = true ∧
    (∃ ml, rewriteLines false ("root".data) [("see [a][2]\n".data)] = .ok ml) := by
  have h := c6_theorem false ("root".data) [("see [a][2]\n".data)] [] (by decide) (by decide)
  exact ⟨by rw [h.1]; decide, h.2.2⟩

/-- Claim C7, counterexample.  A close marker whose name does not match
the current node is not consumed (no ascent, `end_line` stays 0, the node
stays attached), but it does not leave the current node's recorded fields
unchanged: `current_node.end = match.end(0)` runs before the name check.
Parsing `{{< tab x >}}\nB\n` leaves the unclosed child with `colEnd = 0`;
replacing the second line by the mismatched `{{< /other >}}\n` yields
`colEnd = 14`. -/
theorem c7_counterexample :
    parseDoc ("{{< tab x >}}\nB\n".data) =
      .ok (.mk ("root".data) ["{{< tab x >}}\n".data] [] 0 0 0 0
        [.mk ("tab".data) ["{{< tab x >}}\n".data, "B\n".data] [] 0 0 0 0 []]) ∧
    parseDoc ("{{< tab x >}}\n{{< /other >}}\n".data) =
      .ok (.mk ("root".data) ["{{< tab x >}}\n".data] [] 0 0 0 0
        [.mk ("tab".data) ["{{< tab x >}}\n".data, "{{< /other >}}\n".data] [] 0 0 0 14 []]) :=
  ⟨rfl, rfl⟩

/-- Claim C7, amended.  Processing a close marker whose captured name
differs from the current node's name does not ascend, does not finalize
`end_line`, and leaves every recorded field unchanged except `colEnd`
(`current_node.end`), which is overwritten with the match end. -/
theorem c7_theorem (st : PState) (m : List Char × Nat) (line : List Char)
    (h : m.1 ≠ st.cur.name) :
    closeStep st m line = { st with cur := { st.cur with colEnd := m.2 } } := by
  simp [closeStep, h]

/-- Witness for `c7_theorem` at a concrete state and marker. -/
theorem c7_witness :
    ("other".data ≠ initState.cur.name) ∧
    closeStep initState ("other".data, 14) [] =
      { initState with cur := { initState.cur with colEnd := 14 } } :=
  ⟨by decide, c7_theorem initState ("other".data, 14) [] (by decide)⟩

/-- Claim C8 (code bug).  The pipeline is not idempotent: on
`[1]: http://x\nsee [a][1]\n` the first run succeeds but, because the
footnote block starting at line 0 fails the `if start_line:` truthiness
test and is treated as absent, a second copy of the definition is
appended at the end.  Re-running on that output hits the fatal
duplicate-index error instead of producing no further changes. -/
theorem c8_theorem :
    formatLinkFile "[1]: http://x\nsee [a][1]\n" =
      .ok "[1]: http://x\nsee [a][1]\n[1]: http://x\n" ∧
    formatLinkFile "[1]: http://x\nsee [a][1]\n[1]: http://x\n" =
      .error (.dupRef 1 ("http://x".data) ("http://x".data)) :=
  ⟨by decide, by decide⟩

/-- Claim C9, counterexample.  The document `a\x0bb\n` contains no
reference-syntax and no inline-link syntax, yet the pipeline returns
`ab\n`, not the input: the rewrite stage strips the vertical-tab control
character even from link-free documents (and, separately, unclosed scopes
also break the round trip). -/
theorem c9_counterexample :
    formatLinkFile "a\x0bb\n" = .ok "ab\n" ∧
    footnotes ("a\x0bb\n".data) = [] ∧
    refSearch ("a\x0bb\n".data) = false ∧
    inlineLinks ("a\x0bb\n".data) = [] ∧
    ("ab\n" : String) ≠ "a\x0bb\n" :=
  ⟨by decide, by decide, by decide, by decide, by decide⟩

/-- A closed-scope document whose top-level items are well formed: the
document is non-empty, carriage-return free (newline translation is the
identity), splitting its text recovers the rendered lines, and the
root's own capture (the collapsed top-level lines) is link-free and
control-free. -/
def c9Doc (items : List SDoc) : Bool :=
  !items.isEmpty && wfList ("root".data) items &&
  decide (normalizeNewlines (joinLines (renderList items)) =
    joinLines (renderList items)) &&
  decide (splitKeepEnds (joinLines (renderList items)) = renderList items) &&
  contentOk (collapsedList items)

/-- Claim C9, amended.  For every non-empty document containing no
reference-syntax and no inline-link syntax, none of the stripped control
characters, no carriage returns, and whose shortcode scopes all parse
closed, the pipeline returns a string identical to its input.  The
closed-scope documents are quantified by the grammar `SDoc`: any mix of
plain link-free lines (which may carry one-liner markers and mismatched
close markers), multi-line scopes with well-formed marker lines and
link-free captures (nested to any depth), and one-line scopes. -/
theorem c9_theorem (items : List SDoc) (hdoc : c9Doc items = true) :
    formatLinkChars (joinLines (renderList items)) =
      .ok (joinLines (renderList items)) := by
  have hparts := hdoc
  unfold c9Doc at hparts
  simp only [Bool.and_eq_true, decide_eq_true_eq, Bool.not_eq_true'] at hparts
  obtain ⟨⟨⟨⟨hne0, hwf⟩, hnorm⟩, hsplit⟩, hroot⟩ := hparts
  have hne : items ≠ [] := by
    intro h
    subst h
    simp [List.isEmpty] at hne0
  have hrl : readLines (joinLines (renderList items)) = renderList items := by
    unfold readLines
    rw [hnorm, hsplit]
  obtain ⟨cs, ce, ks, heff, hsh⟩ :=
    parseRunList items ("root".data) initState hwf rfl rfl
  have hsh0 : Sh items 0 ks := hsh
  have heff2 : runParse (renderList items) =
      { stack := [],
        cur := { name := "root".data, lines := collapsedList items,
                 children := ks, startLine := 0, colStart := cs, colEnd := ce },
        nln := 0 + (collapsedList items).length } := heff
  have hcoll : collapsedList items ≠ [] := collapsedList_ne_nil items hne
  have hparse : parseDoc (joinLines (renderList items)) =
      .ok (Node.mk ("root".data) (collapsedList items) [] 0 0 cs ce ks) := by
    unfold parseDoc
    rw [hrl, heff2]
    simp only [collapse, frameToNode, Node.lines]
    rw [if_neg (by simpa [List.isEmpty_iff] using hcoll)]
  obtain ⟨hf, hl, hc, hs⟩ := contentOk_elim _ hroot
  have hrw : rewriteLines false ("root".data) (collapsedList items) =
      .ok (collapsedList items) :=
    rewriteLines_plain _ hcoll hf hl hc hs
  have hkids : processKids ks = .ok (procKids ks) := procShape hsh0 ("root".data) hwf
  have hproc : processNodes false
      (Node.mk ("root".data) (collapsedList items) [] 0 0 cs ce ks) =
      .ok (Node.mk ("root".data) (collapsedList items) (collapsedList items)
        0 0 cs ce (procKids ks)) := by
    simp only [processNodes, hrw, hkids]
  have hasm : assembleKids (procKids ks) (collapsedList items) =
      .ok (renderList items) := by
    have h0 := asmShape hsh0 ("root".data) hwf [] [] rfl
    simpa using h0
  unfold formatLinkChars
  rw [hparse]
  simp only [hproc, assembleNode, hasm]

/-- The closed-scope items for the `c9_theorem` witness: a plain line, a
multi-line `tab` scope containing a plain line, a one-line `x` scope and
a nested multi-line `sub` scope, then a one-liner `vimeo` marker line, a
stray mismatched close marker line, and a final plain line. -/
def c9Items : List SDoc :=
  [SDoc.line ("A\n".data),
   SDoc.scope ("tab".data) ("{{< tab a >}}\n".data)
     [SDoc.line ("B\n".data),
      SDoc.inlineScope ("x".data) ("i {{< x >}}b{{< /x >}} j\n".data),
      SDoc.scope ("sub".data) ("{{< sub c >}}\n".data)
        [SDoc.line ("C\n".data)] ("{{< /sub >}}\n".data)]
     ("{{< /tab >}}\n".data),
   SDoc.line ("{{< vimeo >}}\n".data),
   SDoc.line ("E {{< /zzz >}}\n".data),
   SDoc.line ("D\n".data)]

/-- Witness for `c9_theorem` on a document with a multi-line scope, a
nested scope, a one-line scope, a one-liner marker and a stray close
marker. -/
theorem c9_witness :
    formatLinkChars (joinLines (renderList c9Items)) =
      .ok (joinLines (renderList c9Items)) :=
  c9_theorem c9Items (by decide)

/-- Claim C10.  The one-liner tuple joins the adjacent literals
`"aws-permissions" "dbm-sqlserver-before-you-begin"` into the single
element `"aws-permissionsdbm-sqlserver-before-you-begin"`, so neither
name is individually a one-liner, and an open marker with either name
creates a child scope node that the parser descends into (the child, not
the root, captures the following line). -/
theorem c10_theorem :
    ("aws-permissions".data ∉ oneLinerTags) ∧
    ("dbm-sqlserver-before-you-begin".data ∉ oneLinerTags) ∧
    ("aws-permissionsdbm-sqlserver-before-you-begin".data ∈ oneLinerTags) ∧
    parseDoc ("{{< aws-permissions >}}\nX\n".data) =
      .ok (.mk ("root".data) ["{{< aws-permissions >}}\n".data] [] 0 0 0 0
        [.mk ("aws-permissions".data)
          ["{{< aws-permissions >}}\n".data, "X\n".data] [] 0 0 0 0 []]) ∧
    parseDoc ("{{< dbm-sqlserver-before-you-begin >}}\nX\n".data) =
      .ok (.mk ("root".data) ["{{< dbm-sqlserver-before-you-begin >}}\n".data] [] 0 0 0 0
        [.mk ("dbm-sqlserver-before-you-begin".data)
          ["{{< dbm-sqlserver-before-you-begin >}}\n".data, "X\n".data] [] 0 0 0 0 []]) :=
  ⟨by decide, by decide, by decide, rfl, rfl⟩

end FormatLink
